import Mathlib

/-!
Verification of the mcp-context-manager storage layer (src/storage/file-store.ts)
and its domain stores (memory, tracker, checkpoint tools) against the design
specification.  The TypeScript source is shallowly embedded: JSON documents are
an inductive tree, the on-disk state is a finite map from paths to file
contents, Node's `fs` primitives become pure functions on that map, and I/O
failures are injected through explicit fault parameters.  JavaScript string
primitives used by the backup logic (`startsWith`, `endsWith`, the default
lexicographic `Array.prototype.sort` comparator) are implemented structurally
on character lists so that every definition is executable.
-/

namespace CtxMgr

/-- JSON values: the document payloads persisted by the store.  Mirrors the
"arbitrary structured value (a tree of scalars, ordered sequences, and
string-keyed mappings)" of the data model. -/
inductive Json : Type where
  | null : Json
  | bool (b : Bool) : Json
  | num (n : Int) : Json
  | str (s : String) : Json
  | arr (elems : List Json) : Json
  | obj (fields : List (String × Json)) : Json

/-- On-disk file content.  `jsonOf v` is text that `JSON.parse` decodes to `v`
(the output of `JSON.stringify v`); `invalid raw` is text that `JSON.parse`
rejects.  Serialization is modelled at this level: `JSON.parse` applied to
`JSON.stringify v` yields a value deep-equal to `v` for every JSON tree `v`. -/
inductive Content : Type where
  | jsonOf (v : Json) : Content
  | invalid (raw : String) : Content

/-- Result of `JSON.parse` on a file's content. -/
def parseContent : Content → Option Json
  | .jsonOf v => some v
  | .invalid _ => none

/-- Paths are modelled by their slash-separated component lists: `path.join`
appends a component, `path.dirname` drops the last component and
`path.basename` returns it (all filenames in this system are slash-free). -/
abbrev FsPath := List String

/-- Split a path into its directory and its final component (`path.dirname`
and `path.basename`). -/
def splitLast : FsPath → Option (FsPath × String)
  | [] => none
  | [x] => some ([], x)
  | x :: y :: xs =>
    match splitLast (y :: xs) with
    | some (d, b) => some (x :: d, b)
    | none => none

/-- The file system: a finite map from paths to file contents, as an
association list. -/
abbrev Fs := List (FsPath × Content)

/-- Content stored at path `p`, if any (`ENOENT` is `none`). -/
def lookupFs : Fs → FsPath → Option Content
  | [], _ => none
  | e :: es, p => if e.1 = p then some e.2 else lookupFs es p

/-- Remove the entry at path `p` (`fs.unlink`; removing a missing path is a
no-op here, matching the call sites that ignore unlink errors). -/
def unlinkFs : Fs → FsPath → Fs
  | [], _ => []
  | e :: es, p => if e.1 = p then unlinkFs es p else e :: unlinkFs es p

/-- Create or overwrite the file at `p` with content `c` (`fs.writeFile`,
`fs.copyFile` to `p`). -/
def writeFs (fs : Fs) (p : FsPath) (c : Content) : Fs :=
  (p, c) :: unlinkFs fs p

/-- Atomic `fs.rename src dst`: the destination takes the source's content and
the source disappears.  (The source exists at every call site reached on the
non-faulting path.) -/
def renameFs (fs : Fs) (src dst : FsPath) : Fs :=
  match lookupFs fs src with
  | some c => writeFs (unlinkFs fs src) dst c
  | none => fs

/-- Names of the files inside directory `dir` (`fs.readdir`). -/
def dirEntries (fs : Fs) (dir : FsPath) : List String :=
  fs.filterMap (fun e =>
    match splitLast e.1 with
    | some (d, b) => if d = dir then some b else none
    | none => none)

/-- A well-formed file system binds each path at most once. -/
abbrev WfFs (fs : Fs) : Prop := (fs.map (·.1)).Nodup

/-! JavaScript string primitives, implemented structurally on `String.data`. -/

/-- Character-list prefix test (backs `String.prototype.startsWith`). -/
def chIsPre : List Char → List Char → Bool
  | [], _ => true
  | _ :: _, [] => false
  | a :: as, b :: bs => a = b && chIsPre as bs

/-- `s.startsWith p` of JavaScript. -/
def jsStartsWith (s p : String) : Bool := chIsPre p.data s.data

/-- `s.endsWith p` of JavaScript. -/
def jsEndsWith (s p : String) : Bool := chIsPre p.data.reverse s.data.reverse

/-- Lexicographic `≤` on character lists: the default comparator of
`Array.prototype.sort` for strings (code-unit order; these names are ASCII). -/
def chLE : List Char → List Char → Bool
  | [], _ => true
  | _ :: _, [] => false
  | a :: as, b :: bs => if a = b then chLE as bs else decide (a < b)

/-- JavaScript string `≤` used by `Array.prototype.sort()`. -/
def jsStrLE (a b : String) : Bool := chLE a.data b.data

/-- The sort relation on strings as a `Prop`, for `List.insertionSort`. -/
def JsLE (a b : String) : Prop := jsStrLE a b = true

instance : DecidableRel JsLE := fun a b => inferInstanceAs (Decidable (jsStrLE a b = true))

/-- `files.sort()` of JavaScript: stable sort under the default lexicographic
comparator.  On duplicate-free listings every correct sort returns the same
list, so insertion sort is used as the executable model. -/
def jsSort (files : List String) : List String := List.insertionSort JsLE files

instance : IsTotal String JsLE := ⟨by
  intro a b
  show jsStrLE a b = true ∨ jsStrLE b a = true
  unfold jsStrLE
  generalize a.data = l
  generalize b.data = m
  induction l generalizing m with
  | nil => left; rfl
  | cons x xs ih =>
    cases m with
    | nil => right; rfl
    | cons y ys =>
      by_cases hxy : x = y
      · subst hxy
        rcases ih ys with h | h
        · left; simpa [chLE] using h
        · right; simpa [chLE] using h
      · rcases lt_or_gt_of_ne hxy with h | h
        · left; simp [chLE, hxy, h]
        · right; simp [chLE, Ne.symm hxy, h]⟩

instance : IsTrans String JsLE := ⟨by
  intro a b c
  show jsStrLE a b = true → jsStrLE b c = true → jsStrLE a c = true
  unfold jsStrLE
  generalize a.data = l
  generalize b.data = m
  generalize c.data = k
  induction l generalizing m k with
  | nil => intro _ _; rfl
  | cons x xs ih =>
    cases m with
    | nil => intro h _; simp [chLE] at h
    | cons y ys =>
      cases k with
      | nil => intro _ h; simp [chLE] at h
      | cons z zs =>
        intro h1 h2
        by_cases hxy : x = y <;> by_cases hyz : y = z
        · subst hxy; subst hyz
          simp only [chLE, if_pos rfl] at h1 h2 ⊢
          exact ih ys zs h1 h2
        · subst hxy
          simp only [chLE, if_pos rfl] at h1
          simp only [chLE, if_neg hyz] at h2
          simp [chLE, hyz, of_decide_eq_true h2]
        · subst hyz
          simp only [chLE, if_neg hxy] at h1
          simp [chLE, hxy, of_decide_eq_true h1]
        · simp only [chLE, if_neg hxy] at h1
          simp only [chLE, if_neg hyz] at h2
          have hlt : x < z := lt_trans (of_decide_eq_true h1) (of_decide_eq_true h2)
          simp [chLE, ne_of_lt hlt, hlt]⟩

instance : IsAntisymm String JsLE := ⟨by
  intro a b h1 h2
  have hd : a.data = b.data := by
    revert h1 h2
    show jsStrLE a b = true → jsStrLE b a = true → a.data = b.data
    unfold jsStrLE
    generalize a.data = l
    generalize b.data = m
    induction l generalizing m with
    | nil =>
      cases m with
      | nil => intro _ _; rfl
      | cons y ys => intro _ h; simp [chLE] at h
    | cons x xs ih =>
      cases m with
      | nil => intro h _; simp [chLE] at h
      | cons y ys =>
        intro h1 h2
        by_cases hxy : x = y
        · subst hxy
          simp only [chLE, if_pos rfl] at h1 h2
          rw [ih ys h1 h2]
        · simp only [chLE, if_neg hxy, if_neg (Ne.symm hxy)] at h1 h2
          exact absurd (of_decide_eq_true h2) (lt_asymm (of_decide_eq_true h1))
  cases a
  cases b
  exact congrArg String.mk hd⟩

/-- The `m` newest timestamps of a list, newest first (a specification-side
notion used to state the rotation claims: sort ascending, reverse, take `m`). -/
def newestTake (m : Nat) (tss : List Nat) : List Nat :=
  ((List.insertionSort (fun a b : Nat => a ≤ b) tss).reverse).take m

/-! The FileStore (src/storage/file-store.ts).  Each operation below is the
body of the corresponding method; the `withFileLock` wrapper around them is
modelled separately by the lock machine further down.  Node I/O failures are
injected through explicit fault parameters: the functions are the semantics of
the method under the given fault environment. -/

/-- Constructor options of `FileStore` (`StoreOptions`), with the defaults
`enableBackup = true` and `maxBackups = 3` applied. -/
structure StoreOptions where
  basePath : FsPath
  enableBackup : Bool := true
  maxBackups : Nat := 3

/-- Backup file name `${basename}.${timestamp}.bak` created next to the
target. -/
def bkName (filename : String) (ts : Nat) : String :=
  filename ++ "." ++ Nat.repr ts ++ ".bak"

/-- Temporary file name `${basename}.tmp.${timestamp}`. -/
def tmpName (filename : String) (ts : Nat) : String :=
  filename ++ ".tmp." ++ Nat.repr ts

/-- The backup enumeration filter of `createBackup`:
`f.startsWith(basename) && f.endsWith('.bak')`. -/
def backupMatch (base f : String) : Bool :=
  jsStartsWith f base && jsEndsWith f ".bak"

/-- The rotation listing of `createBackup`: matching directory entries,
`.sort()`ed and `.reverse()`d (so descending). -/
def sortedBackups (files : List String) (base : String) : List String :=
  (jsSort (files.filter (fun f => backupMatch base f))).reverse

/-- `FileStore.createBackup`: if backups are enabled and the target exists,
copy it to `${filePath}.${Date.now()}.bak`, then enumerate the directory and
unlink every matching name past index `maxBackups` of the descending listing.
`ts` is the value `Date.now()` returned.  If the target does not exist the
`fsp.access` probe throws and the catch returns with no backup taken. -/
def createBackup (st : StoreOptions) (fs : Fs) (ts : Nat) (filePath : FsPath) : Fs :=
  if !st.enableBackup then fs else
  match splitLast filePath with
  | none => fs
  | some (dir, base) =>
    match lookupFs fs filePath with
    | none => fs
    | some c =>
      let fs1 := writeFs fs (dir ++ [bkName base ts]) c
      let backups := sortedBackups (dirEntries fs1 dir) base
      (backups.drop st.maxBackups).foldl (fun acc f => unlinkFs acc (dir ++ [f])) fs1

/-- Fault environment for a mutating operation: either both `fsp.writeFile` to
the temporary path and `fsp.rename` succeed, or one of them throws the given
error. -/
inductive WriteFault where
  | ok : WriteFault
  | tempWriteFails (msg : String) : WriteFault
  | renameFails (msg : String) : WriteFault

/-- The shared persistence tail of `FileStore.write` and `FileStore.append`
(both methods contain the same code): back up the existing target, write the
serialized data to `${filePath}.tmp.${Date.now()}`, and rename it onto the
target.  On a write or rename failure the temporary file is unlinked (that
unlink's own failure, `cleanupFails = true`, is swallowed by
`.catch(() => {})`) and the original error is rethrown. -/
def atomicPersist (st : StoreOptions) (fs : Fs) (wf : WriteFault)
    (cleanupFails : Bool) (ts : Nat) (filename : String) (data : Json) :
    Except String Unit × Fs :=
  let filePath := st.basePath ++ [filename]
  let fs1 := createBackup st fs ts filePath
  let tempPath := st.basePath ++ [tmpName filename ts]
  match wf with
  | .tempWriteFails msg =>
      (.error msg, if cleanupFails then fs1 else unlinkFs fs1 tempPath)
  | .renameFails msg =>
      let fs2 := writeFs fs1 tempPath (.jsonOf data)
      (.error msg, if cleanupFails then fs2 else unlinkFs fs2 tempPath)
  | .ok =>
      let fs2 := writeFs fs1 tempPath (.jsonOf data)
      (.ok (), renameFs fs2 tempPath filePath)

/-- `FileStore.write`: serialize `data` and persist it through the
backup/temp-write/rename sequence.  Returns the call's outcome and the
resulting file system. -/
def FileStore.write (st : StoreOptions) (fs : Fs) (wf : WriteFault)
    (cleanupFails : Bool) (ts : Nat) (filename : String) (data : Json) :
    Except String Unit × Fs :=
  atomicPersist st fs wf cleanupFails ts filename data

/-- `FileStore.read`: parse the target file, defaulting exactly on `ENOENT`.
`fault = some msg` injects a non-`ENOENT` `fsp.readFile` failure (permission
or disk error); `JSON.parse` failure on existing content is rethrown because a
`SyntaxError` carries no `ENOENT` code. -/
def FileStore.read (st : StoreOptions) (fs : Fs) (fault : Option String)
    (filename : String) (defaultValue : Json) : Except String Json :=
  let filePath := st.basePath ++ [filename]
  match fault with
  | some msg => .error ("Failed to read " ++ filename ++ ": " ++ msg)
  | none =>
    match lookupFs fs filePath with
    | none => .ok defaultValue
    | some content =>
      match parseContent content with
      | some v => .ok v
      | none => .error ("Failed to read " ++ filename ++ ": JSON.parse failed")

/-- `FileStore.append`: read the target as a sequence (missing or unparseable
content becomes `[]`), push the new item, then persist through the same
backup/temp-write/rename path as `FileStore.write`.  A file that parses to a
non-array makes `existing.push` throw a `TypeError` before anything is
written. -/
def FileStore.append (st : StoreOptions) (fs : Fs) (wf : WriteFault)
    (cleanupFails : Bool) (ts : Nat) (filename : String) (item : Json) :
    Except String Unit × Fs :=
  let filePath := st.basePath ++ [filename]
  let existing : Except String (List Json) :=
    match lookupFs fs filePath with
    | none => .ok []
    | some content =>
      match parseContent content with
      | some (.arr xs) => .ok xs
      | some _ => .error "TypeError: existing.push is not a function"
      | none => .ok []
  match existing with
  | .error msg => (.error msg, fs)
  | .ok xs => atomicPersist st fs wf cleanupFails ts filename (.arr (xs ++ [item]))

def c4st : StoreOptions := { basePath := ["ctx"] }

/-- Store state for the C4 counterexample: target `a` with three of its own
backups, and a backup of a sibling target `ab` whose name also passes `a`'s
rotation filter (`startsWith("a") && endsWith(".bak")`). -/
def c4fs : Fs :=
  [(["ctx", "a"], .jsonOf (.num 0)),
   (["ctx", "a.100.bak"], .jsonOf (.num 100)),
   (["ctx", "a.101.bak"], .jsonOf (.num 101)),
   (["ctx", "a.102.bak"], .jsonOf (.num 102)),
   (["ctx", "ab.900.bak"], .jsonOf (.num 900))]

/-- Store state for the C4 witness: a normal target with three backups whose
equal-width timestamps sort consistently. -/
def c4wfs : Fs :=
  [(["ctx", "data.json"], .jsonOf (.num 0)),
   (["ctx", "data.json.100.bak"], .jsonOf (.num 100)),
   (["ctx", "data.json.101.bak"], .jsonOf (.num 101)),
   (["ctx", "data.json.102.bak"], .jsonOf (.num 102))]

/-! The lock manager: `withFileLock` (file-store.ts lines 12-35).  `fileLocks`
maps each normalized path to the pending lock promise.  A caller loops
`while (fileLocks.has(path)) await fileLocks.get(path)`, then installs its own
promise; the `finally` clause deletes the entry and resolves it.

Two machines embed this protocol at different grain.  The first below fuses
the `finally` clause with the earliest waiter's re-check into one atomic
step; it is adequate for the release behaviour (the `finally` runs on both
settle outcomes and always unblocks the queued waiters), which is what it is
used for.  It is deliberately coarser than the source on arrival order: in
the source the map entry is deleted first and the waiters' continuations run
only later as queued promise reactions, so the map can be observed empty
between the two.  The second machine (`lockStepW`, further below) separates
the release from the waiters' wake-ups and exposes that window. -/

/-- Lock state for one path: the operation inside its critical section and
the waiters registered on the current promise, in registration order. -/
structure PathLock where
  holder : Option Nat
  waiters : List Nat
deriving DecidableEq

/-- The `fileLocks` map, one entry per path holding a live lock promise. -/
abbrev LockMap := List (String × PathLock)

/-- Lock-map lookup; an absent entry reads as the idle state. -/
def getLock (L : LockMap) (p : String) : PathLock :=
  match L with
  | [] => ⟨none, []⟩
  | e :: es => if e.1 = p then e.2 else getLock es p

/-- `fileLocks.has(path)`. -/
def hasLock (L : LockMap) (p : String) : Bool :=
  match L with
  | [] => false
  | e :: es => if e.1 = p then true else hasLock es p

/-- `fileLocks.set(path, promise)`. -/
def setLock (L : LockMap) (p : String) (s : PathLock) : LockMap :=
  match L with
  | [] => [(p, s)]
  | e :: es => if e.1 = p then (p, s) :: es else e :: setLock es p s

/-- `fileLocks.delete(path)`. -/
def delLock (L : LockMap) (p : String) : LockMap :=
  match L with
  | [] => []
  | e :: es => if e.1 = p then delLock es p else e :: delLock es p

/-- External events: `arrive op p` is a call `withFileLock(p, fn)` by
operation `op`; `finish p ok` is the holder's `fn` settling (fulfilled when
`ok`, rejected when not), which runs the `finally` clause either way. -/
inductive LockEv where
  | arrive (op : Nat) (p : String)
  | finish (p : String) (ok : Bool)

/-- Chronological observations: an operation arrived, entered its critical
section, or completed it (normally or with an error). -/
inductive LockTraceEv where
  | arrived (op : Nat) (p : String)
  | started (op : Nat) (p : String)
  | completed (op : Nat) (p : String) (ok : Bool)
deriving DecidableEq

/-- Machine state: the lock map plus the observation trace. -/
structure LockSys where
  locks : LockMap
  trace : List LockTraceEv
deriving DecidableEq

/-- One step of the lock machine. -/
def lockStep (s : LockSys) : LockEv → LockSys
  | .arrive op p =>
    match getLock s.locks p with
    | ⟨none, _⟩ =>
      ⟨setLock s.locks p ⟨some op, []⟩, s.trace ++ [.arrived op p, .started op p]⟩
    | ⟨some h, w⟩ =>
      ⟨setLock s.locks p ⟨some h, w ++ [op]⟩, s.trace ++ [.arrived op p]⟩
  | .finish p ok =>
    match getLock s.locks p with
    | ⟨none, _⟩ => s
    | ⟨some h, []⟩ => ⟨delLock s.locks p, s.trace ++ [.completed h p ok]⟩
    | ⟨some h, n :: rest⟩ =>
      ⟨setLock s.locks p ⟨some n, rest⟩,
        s.trace ++ [.completed h p ok, .started n p]⟩

/-- Operations that arrived at path `p`, in order. -/
def arrivedOn (p : String) (tr : List LockTraceEv) : List Nat :=
  tr.filterMap fun ev =>
    match ev with
    | .arrived op q => if q = p then some op else none
    | _ => none

/-- Operations that entered the critical section at path `p`, in order. -/
def startedOn (p : String) (tr : List LockTraceEv) : List Nat :=
  tr.filterMap fun ev =>
    match ev with
    | .started op q => if q = p then some op else none
    | _ => none

/-- Operations that completed the critical section at path `p`, in order. -/
def completedOn (p : String) (tr : List LockTraceEv) : List Nat :=
  tr.filterMap fun ev =>
    match ev with
    | .completed op q _ => if q = p then some op else none
    | _ => none

/-- Lock-machine fixture: operation 1 holds the lock on `"a"` with
operations 2 and 3 waiting in order. -/
def c6sys : LockSys := ⟨[("a", ⟨some 1, [2, 3]⟩)], []⟩

/-- Lock-machine fixture: operation 1 holds the lock on `"a"` with no
waiters. -/
def c6sys2 : LockSys := ⟨[("a", ⟨some 1, []⟩)], []⟩

/-! The refined lock machine: release and waiter wake-up as separate steps.
The `finally` clause only deletes the map entry and resolves the promise;
each waiter's continuation is queued as a promise reaction (reactions of one
promise are queued in registration order) and re-executes the `while` check
only when it runs.  A caller that reaches the check between the deletion and
a queued continuation's turn finds `fileLocks.has` false and acquires
immediately, ahead of every queued waiter.  Per path the state aggregates
the map entry (`holder`, present exactly when `fileLocks.has` is true), the
reactions registered on the live promise (`waiters`), and the continuations
already queued but not yet run (`woken`). -/

/-- Refined lock state for one path. -/
structure PathLockW where
  holder : Option Nat
  waiters : List Nat
  woken : List Nat
deriving DecidableEq

/-- The refined lock map, total over paths: an absent assoc entry reads as
the idle state. -/
abbrev LockMapW := List (String × PathLockW)

/-- Refined lock-map lookup. -/
def getLockW (L : LockMapW) (p : String) : PathLockW :=
  match L with
  | [] => ⟨none, [], []⟩
  | e :: es => if e.1 = p then e.2 else getLockW es p

/-- Refined lock-map update. -/
def setLockW (L : LockMapW) (p : String) (s : PathLockW) : LockMapW :=
  match L with
  | [] => [(p, s)]
  | e :: es => if e.1 = p then (p, s) :: es else e :: setLockW es p s

/-- Refined events: `arrive op p` is a call `withFileLock(p, fn)` reaching
the `while` check; `finish p ok` is the holder's `fn` settling, running the
`finally` clause (delete the entry, resolve the promise, queueing all
registered reactions); `wake p` is the oldest queued continuation at `p`
re-running its check. -/
inductive LockEvW where
  | arrive (op : Nat) (p : String)
  | finish (p : String) (ok : Bool)
  | wake (p : String)

/-- The path a refined event concerns. -/
def evPath : LockEvW → String
  | .arrive _ p => p
  | .finish p _ => p
  | .wake p => p

/-- Whether a refined event concerns path `p`. -/
def evOnW (p : String) (e : LockEvW) : Bool := decide (evPath e = p)

/-- The path a trace observation concerns. -/
def tePath : LockTraceEv → String
  | .arrived _ p => p
  | .started _ p => p
  | .completed _ p _ => p

/-- The per-path transition: given the event and the state at its path,
the new state at that path and the recorded observations.  An arrival with
the map empty installs a fresh promise (no reactions yet) and enters; with a
holder present it registers on the holder's promise.  A finish deletes the
entry and queues every registered reaction behind those already queued.  A
wake with the map empty acquires; with a holder present it re-registers at
the end of the holder's reactions. -/
def pathStep : LockEvW → PathLockW → PathLockW × List LockTraceEv
  | .arrive op p, ⟨none, _, k⟩ =>
    (⟨some op, [], k⟩, [.arrived op p, .started op p])
  | .arrive op p, ⟨some h, w, k⟩ =>
    (⟨some h, w ++ [op], k⟩, [.arrived op p])
  | .finish _ _, ⟨none, w, k⟩ => (⟨none, w, k⟩, [])
  | .finish p ok, ⟨some h, w, k⟩ => (⟨none, [], k ++ w⟩, [.completed h p ok])
  | .wake _, ⟨hol, w, []⟩ => (⟨hol, w, []⟩, [])
  | .wake p, ⟨none, _, n :: rest⟩ => (⟨some n, [], rest⟩, [.started n p])
  | .wake _, ⟨some h, w, n :: rest⟩ => (⟨some h, w ++ [n], rest⟩, [])

/-- Refined machine state. -/
structure LockSysW where
  locks : LockMapW
  trace : List LockTraceEv
deriving DecidableEq

/-- One refined step: read the state at the event's path, apply the per-path
transition, write it back, record the observations. -/
def lockStepW (s : LockSysW) (e : LockEvW) : LockSysW :=
  ⟨setLockW s.locks (evPath e) (pathStep e (getLockW s.locks (evPath e))).1,
    s.trace ++ (pathStep e (getLockW s.locks (evPath e))).2⟩

/-- Run the refined machine from the empty state. -/
def lockRunW (evs : List LockEvW) : LockSysW := evs.foldl lockStepW ⟨[], []⟩

/-- Refined per-path invariant: the arrivals are, as a multiset, the started
operations plus those still queued (woken or registered); the holder is the
one started-but-not-completed operation; while the map entry is absent no
reaction is registered (there is no promise to register on). -/
def LockInvW (s : LockSysW) (p : String) : Prop :=
  List.Perm
    (startedOn p s.trace ++ (getLockW s.locks p).woken
      ++ (getLockW s.locks p).waiters)
    (arrivedOn p s.trace)
  ∧ ((∃ h, (getLockW s.locks p).holder = some h
        ∧ startedOn p s.trace = completedOn p s.trace ++ [h])
     ∨ ((getLockW s.locks p).holder = none
        ∧ startedOn p s.trace = completedOn p s.trace
        ∧ (getLockW s.locks p).waiters = []))

/-- Overtaking schedule on path `"a"`: operation 1 acquires; 2 arrives and
registers; 1 finishes (entry deleted, 2's continuation queued); 3 arrives
before that continuation runs, finds the map empty and acquires; 2's
continuation then re-registers behind 3; 3 finishes; 2 finally acquires and
finishes. -/
def c5evs : List LockEvW :=
  [.arrive 1 "a", .arrive 2 "a", .finish "a" true, .arrive 3 "a",
   .wake "a", .finish "a" true, .wake "a", .finish "a" true]

/-! Association-list primitives shared by the domain stores: a JavaScript
object's string-keyed properties, in insertion order.  Property assignment
updates in place or appends; `delete obj[k]` removes the binding. -/

/-- First binding of key `k`. -/
def lookupEntry {α : Type} : List (String × α) → String → Option α
  | [], _ => none
  | e :: es, k => if e.1 = k then some e.2 else lookupEntry es k

/-- JavaScript property assignment `obj[k] = v`. -/
def setEntry {α : Type} : List (String × α) → String → α → List (String × α)
  | [], k, v => [(k, v)]
  | e :: es, k, v => if e.1 = k then (k, v) :: es else e :: setEntry es k v

/-- JavaScript `delete obj[k]`. -/
def delEntry {α : Type} : List (String × α) → String → List (String × α)
  | [], _ => []
  | e :: es, k => if e.1 = k then delEntry es k else e :: delEntry es k

/-! The Memory tool (src/tools/memory.ts) and the session-initialization
memory listing (src/tools/session.ts).  ISO-8601 timestamp strings are
modelled by their epoch-millisecond values (the source converts with
`new Date(iso).getTime()`); `ttl` is milliseconds. -/

/-- A Memory entry. -/
structure MemoryEntry where
  key : String
  value : Json
  tags : List String
  createdAt : Nat
  updatedAt : Nat
  ttl : Option Nat

/-- The `entries` object of memory.json. -/
abbrev MemoryEntries := List (String × MemoryEntry)

/-- `isExpired`: false when `!entry.ttl` (absent or `0`, both falsy), else
`Date.now() > new Date(entry.updatedAt).getTime() + entry.ttl`. -/
def isExpired (e : MemoryEntry) (now : Nat) : Bool :=
  match e.ttl with
  | none => false
  | some t => if t = 0 then false else decide (now > e.updatedAt + t)

/-- The `memory_set` handler: keep `createdAt` of an existing entry, stamp
`updatedAt := now`, and store exactly the `ttl` argument (absent argument
clears any previous TTL). -/
def memory_set (es : MemoryEntries) (k : String) (v : Json)
    (tags : Option (List String)) (ttl : Option Nat) (now : Nat) : MemoryEntries :=
  let existing := lookupEntry es k
  setEntry es k
    { key := k, value := v, tags := tags.getD [],
      createdAt := (existing.map (·.createdAt)).getD now,
      updatedAt := now, ttl := ttl }

/-- Outcome of `memory_get`. -/
inductive GetResult where
  | notFound
  | expired
  | found (e : MemoryEntry)

/-- The `memory_get` handler: a missing key reports not-found; an expired
entry is deleted from the store and reported expired, in the same step;
otherwise the entry is returned. -/
def memory_get (es : MemoryEntries) (k : String) (now : Nat) :
    GetResult × MemoryEntries :=
  match lookupEntry es k with
  | none => (.notFound, es)
  | some e => if isExpired e now then (.expired, delEntry es k) else (.found e, es)

/-- The `memory_list` handler's listing: non-expired entries projected to
key, tags and updatedAt. -/
def memory_list (es : MemoryEntries) (now : Nat) : List (String × List String × Nat) :=
  ((es.map (·.2)).filter (fun e => !isExpired e now)).map
    (fun e => (e.key, e.tags, e.updatedAt))

/-- The `memory_search` handler: drop expired entries first, then apply the
optional key-pattern predicate (the compiled wildcard regexp test) and the
optional any-tag filter. -/
def memory_search (es : MemoryEntries) (now : Nat)
    (patMatch : Option (String → Bool)) (tagsFilter : Option (List String)) :
    List MemoryEntry :=
  let results := (es.map (·.2)).filter (fun e => !isExpired e now)
  let results :=
    match patMatch with
    | some f => results.filter (fun e => f e.key)
    | none => results
  match tagsFilter with
  | some tags =>
    if tags.isEmpty then results
    else results.filter (fun e => tags.any (fun t => e.tags.contains t))
  | none => results

/-- `getMemoryList` of session.ts, used by `session_init`: keeps an entry
when `!e.ttl` or `Date.now() <= new Date(e.createdAt).getTime() + e.ttl` —
note `createdAt`, where every other read path uses `updatedAt`. -/
def sessionMemoryList (es : MemoryEntries) (now : Nat) :
    List (String × List String × Nat) :=
  ((es.map (·.2)).filter (fun e =>
    match e.ttl with
    | none => true
    | some t => if t = 0 then true else decide (now ≤ e.createdAt + t))).map
    (fun e => (e.key, e.tags, e.updatedAt))

/-- `cleanupExpiredMemories`: delete every expired entry, returning the new
store and the number removed. -/
def cleanupExpiredMemories (es : MemoryEntries) (now : Nat) : MemoryEntries × Nat :=
  (es.filter (fun kv => !isExpired kv.2 now),
   (es.filter (fun kv => isExpired kv.2 now)).length)

/-! The Tracker tool (src/tools/tracker.ts). -/

/-- A tracker entry. -/
structure TrackerEntry where
  id : String
  type : String
  content : String
  tags : List String
  status : Option String
  createdAt : String
  updatedAt : String

/-- tracker.json. -/
structure TrackerStore where
  version : Nat
  entries : List TrackerEntry
  projectName : Option String

/-- JavaScript `es.slice(-k)`: the last `k` elements for `k > 0`; `slice(-0)`
is `slice(0)`, the whole array. -/
def jsSliceLast {α : Type} (k : Nat) (es : List α) : List α :=
  if k = 0 then es else es.drop (es.length - k)

/-- `saveTrackerStore`: stamp the storage version and, when the collection
exceeds `MAX_ENTRIES`, keep only `entries.slice(-ROTATE_KEEP)` before
persisting. -/
def saveTrackerStore (maxEntries rotateKeep : Nat) (s : TrackerStore) : TrackerStore :=
  { s with
    version := 1
    entries :=
      if s.entries.length > maxEntries then jsSliceLast rotateKeep s.entries
      else s.entries }

/-! The Checkpoint tool (src/tools/checkpoint.ts).  The checkpoints
sub-store holds `index.json` plus one payload document `${id}.json` per
checkpoint; payloads are keyed here by `id` (the `id ↦ id.json` naming is a
bijection). -/

/-- An index entry of checkpoints/index.json. -/
structure Checkpoint where
  id : String
  name : String
  description : Option String
  state : Json
  files : List String
  createdAt : String

/-- Persisted checkpoint state: the index and the payload documents. -/
structure CpDisk where
  index : List Checkpoint
  payloads : List (String × Json)

/-- The `checkpoint_save` handler: write the payload document first, push the
index entry with its `state` emptied, and when the index exceeds
`MAX_CHECKPOINTS` splice off the oldest entries and delete their payload
documents before writing the pruned index. -/
def checkpoint_save (maxCp : Nat) (d : CpDisk) (newId : String) (nm : String)
    (descr : Option String) (state : Json) (files : List String) (now : String) :
    CpDisk :=
  let payloads1 := setEntry d.payloads newId state
  let cps := d.index ++
    [{ id := newId, name := nm, description := descr, state := .obj [],
       files := files, createdAt := now }]
  if cps.length > maxCp then
    { index := cps.drop (cps.length - maxCp)
      payloads := (cps.take (cps.length - maxCp)).foldl
        (fun acc cp => delEntry acc cp.id) payloads1 }
  else
    { index := cps, payloads := payloads1 }

/-- The `checkpoint_delete` handler: when the id is present, splice that index
entry out, persist the index, then delete the payload document. -/
def checkpoint_delete (d : CpDisk) (id : String) : CpDisk :=
  if d.index.any (fun cp => decide (cp.id = id)) then
    { index := d.index.eraseP (fun cp => decide (cp.id = id))
      payloads := delEntry d.payloads id }
  else d

/-- Index-payload coherence (claim C9): index ids are distinct and every
indexed checkpoint's payload document exists.  Orphaned payloads are
allowed. -/
def CpInv (d : CpDisk) : Prop :=
  (d.index.map (·.id)).Nodup
  ∧ ∀ cp ∈ d.index, (lookupEntry d.payloads cp.id).isSome = true

/-! Domain-store fixtures for witnesses and counterexamples. -/

/-- A memory entry created at 0 and later updated at 2000, with a 1000 ms
TTL. -/
def c7entryStale : MemoryEntry := ⟨"cfg", .str "v", [], 0, 2000, some 1000⟩

/-- A memory entry written once at time 0 with a 1000 ms TTL. -/
def c7entryFresh : MemoryEntry := ⟨"tmp", .str "w", [], 0, 0, some 1000⟩

/-- 1001 tracker entries in insertion order. -/
def c8entries : List TrackerEntry :=
  (List.range 1001).map (fun i => ⟨Nat.repr i, "note", "", [], none, "", ""⟩)

def c8store : TrackerStore := ⟨1, c8entries, none⟩

/-- A checkpoint store holding one checkpoint with its payload. -/
def c9disk : CpDisk := ⟨[⟨"cp1", "one", none, .obj [], [], "t1"⟩], [("cp1", .num 1)]⟩

def c10es : MemoryEntries :=
  [("k", ⟨"k", .num 1, ["x"], 10, 20, some 500⟩),
   ("other", ⟨"other", .num 2, [], 0, 0, none⟩)]

/-! Concrete fixtures used by witnesses and counterexamples. -/

def c1st : StoreOptions := { basePath := ["ctx"] }

def c1fs : Fs :=
  [(["ctx", "a.json"], .jsonOf (.num 5)), (["ctx", "bad.json"], .invalid "nope")]

def c2st : StoreOptions := { basePath := ["ctx"] }

/-- Store state for the C2 counterexample: a target whose own name ends in
`.bak`, plus three of its timestamped backups. -/
def c2fs : Fs :=
  [(["ctx", "d.bak"], .jsonOf (.num 7)),
   (["ctx", "d.bak.101.bak"], .jsonOf .null),
   (["ctx", "d.bak.102.bak"], .jsonOf .null),
   (["ctx", "d.bak.103.bak"], .jsonOf .null)]

/-! Basic lemmas about the file-system model. -/

theorem lookup_unlinkFs (fs : Fs) (p q : FsPath) :
    lookupFs (unlinkFs fs p) q = if q = p then none else lookupFs fs q := by
  induction fs with
  | nil => simp [unlinkFs, lookupFs]
  | cons e es ih =>
    by_cases hep : e.1 = p
    · rw [show unlinkFs (e :: es) p = unlinkFs es p by simp [unlinkFs, hep], ih]
      by_cases hqp : q = p
      · simp [hqp]
      · have hne : e.1 ≠ q := fun h => hqp (h ▸ hep)
        simp [hqp, lookupFs, hne]
    · rw [show unlinkFs (e :: es) p = e :: unlinkFs es p by simp [unlinkFs, hep]]
      by_cases heq : e.1 = q
      · have hqp : q ≠ p := fun h => hep (heq.trans h)
        simp [lookupFs, heq, hqp]
      · simp [lookupFs, heq, ih]

theorem lookup_writeFs_self (fs : Fs) (p : FsPath) (c : Content) :
    lookupFs (writeFs fs p c) p = some c := by
  simp [writeFs, lookupFs]

theorem lookup_writeFs_ne (fs : Fs) (p q : FsPath) (c : Content) (h : q ≠ p) :
    lookupFs (writeFs fs p c) q = lookupFs fs q := by
  simp [writeFs, lookupFs, Ne.symm h, lookup_unlinkFs, h]

theorem singleton_path_inj {dir : FsPath} {a b : String}
    (h : dir ++ [a] = dir ++ [b]) : a = b := by
  simpa using (List.append_cancel_left h : [a] = [b])

theorem lookup_foldl_unlink_ne (names : List String) (dir : FsPath) (fs : Fs)
    (q : FsPath) (h : ∀ f ∈ names, dir ++ [f] ≠ q) :
    lookupFs (names.foldl (fun acc f => unlinkFs acc (dir ++ [f])) fs) q = lookupFs fs q := by
  induction names generalizing fs with
  | nil => rfl
  | cons f rest ih =>
    simp only [List.foldl_cons]
    rw [ih _ (fun g hg => h g (List.mem_cons_of_mem f hg)), lookup_unlinkFs]
    simp [Ne.symm (h f (List.mem_cons_self f rest))]

theorem lookup_foldl_unlink_mem (names : List String) (dir : FsPath) (fs : Fs)
    (f : String) (hf : f ∈ names) :
    lookupFs (names.foldl (fun acc g => unlinkFs acc (dir ++ [g])) fs) (dir ++ [f]) = none := by
  induction names generalizing fs with
  | nil => cases hf
  | cons g rest ih =>
    simp only [List.foldl_cons]
    rcases List.mem_cons.mp hf with hfg | hfr
    · subst hfg
      by_cases hrest : f ∈ rest
      · exact ih _ hrest
      · rw [lookup_foldl_unlink_ne _ _ _ _
          (fun x hx h => hrest (by rw [← singleton_path_inj h]; exact hx))]
        simp [lookup_unlinkFs]
    · exact ih _ hfr

theorem append_data_length (s t : String) :
    (s ++ t).data.length = s.data.length + t.data.length := by
  simp [String.data_append]

theorem tmpName_ne_filename (f : String) (ts : Nat) : tmpName f ts ≠ f := by
  intro h
  have hl := congrArg (fun s : String => s.data.length) h
  simp only [tmpName, append_data_length] at hl
  have h5 : (".tmp." : String).data.length = 5 := rfl
  rw [h5] at hl
  omega

theorem bkName_ne_filename (f : String) (ts : Nat) : bkName f ts ≠ f := by
  intro h
  have hl := congrArg (fun s : String => s.data.length) h
  simp only [bkName, append_data_length] at hl
  have h1 : ("." : String).data.length = 1 := rfl
  have h4 : (".bak" : String).data.length = 4 := rfl
  rw [h1, h4] at hl
  omega

theorem mem_sortedBackups {files : List String} {base f : String}
    (h : f ∈ sortedBackups files base) : f ∈ files ∧ backupMatch base f = true := by
  simp only [sortedBackups, List.mem_reverse] at h
  have := (List.perm_insertionSort JsLE _).mem_iff.mp h
  exact ⟨(List.mem_filter.mp this).1, (List.mem_filter.mp this).2⟩

/-- A name that matches the backup filter ends in `.bak`. -/
theorem backupMatch_endsWith {base f : String} (h : backupMatch base f = true) :
    jsEndsWith f ".bak" = true := by
  simp only [backupMatch, Bool.and_eq_true] at h
  exact h.2

theorem splitLast_append (dir : FsPath) (b : String) :
    splitLast (dir ++ [b]) = some (dir, b) := by
  induction dir with
  | nil => rfl
  | cons x xs ih =>
    cases xs with
    | nil => rfl
    | cons y ys =>
      have ih' : splitLast (y :: (ys ++ [b])) = some (y :: ys, b) := ih
      show splitLast (x :: (y :: (ys ++ [b]))) = some (x :: y :: ys, b)
      rw [splitLast, ih']

/-- Rotation deletions only touch paths whose final component matches the
backup filter. -/
theorem lookup_rotation_ne (fs1 : Fs) (dir : FsPath) (base : String)
    (files : List String) (m : Nat) (q : FsPath)
    (hq : ∀ f, backupMatch base f = true → dir ++ [f] ≠ q) :
    lookupFs (((sortedBackups files base).drop m).foldl
      (fun acc f => unlinkFs acc (dir ++ [f])) fs1) q = lookupFs fs1 q := by
  apply lookup_foldl_unlink_ne
  intro f hf
  exact hq f (mem_sortedBackups (List.drop_subset _ _ hf)).2

/-- The target file itself is never touched by `createBackup`: its content
survives unchanged provided its own name does not end in `.bak` (otherwise it
matches its own backup filter; see the counterexample for claim C2). -/
theorem createBackup_preserves_target (st : StoreOptions) (fs : Fs) (ts : Nat)
    (filename : String) (hbak : jsEndsWith filename ".bak" = false) :
    lookupFs (createBackup st fs ts (st.basePath ++ [filename])) (st.basePath ++ [filename]) =
      lookupFs fs (st.basePath ++ [filename]) := by
  unfold createBackup
  cases hen : !st.enableBackup with
  | true => simp [hen]
  | false =>
    simp only [hen, Bool.false_eq_true, if_false, splitLast_append]
    cases hlk : lookupFs fs (st.basePath ++ [filename]) with
    | none => exact hlk
    | some c =>
      simp only
      rw [lookup_rotation_ne]
      · rw [lookup_writeFs_ne _ _ _ _
          (fun h => bkName_ne_filename filename ts (singleton_path_inj h).symm)]
        exact hlk
      · intro f hmf h
        have hend := backupMatch_endsWith hmf
        rw [singleton_path_inj h] at hend
        rw [hend] at hbak
        cases hbak

/-! Lemmas for the backup-rotation analysis (claim C4). -/

theorem chLE_refl (l : List Char) : chLE l l = true := by
  induction l with
  | nil => rfl
  | cons x xs ih => simp [chLE, ih]

theorem jsLE_refl (s : String) : JsLE s s := chLE_refl s.data

theorem chIsPre_append (l r : List Char) : chIsPre l (l ++ r) = true := by
  induction l with
  | nil => rfl
  | cons x xs ih => simp [chIsPre, ih]

theorem jsStartsWith_bkName (base : String) (t : Nat) :
    jsStartsWith (bkName base t) base = true := by
  show chIsPre base.data (bkName base t).data = true
  have hd : (bkName base t).data
      = base.data ++ (("." ++ Nat.repr t ++ ".bak" : String)).data := by
    simp [bkName, String.data_append]
  rw [hd]
  exact chIsPre_append _ _

theorem jsEndsWith_append_self (x : String) (suf : String) :
    jsEndsWith (x ++ suf) suf = true := by
  show chIsPre suf.data.reverse (x ++ suf).data.reverse = true
  rw [String.data_append, List.reverse_append]
  exact chIsPre_append _ _

theorem jsEndsWith_bkName (base : String) (t : Nat) :
    jsEndsWith (bkName base t) ".bak" = true :=
  jsEndsWith_append_self (base ++ "." ++ Nat.repr t) ".bak"

theorem backupMatch_bkName (base : String) (t : Nat) :
    backupMatch base (bkName base t) = true := by
  simp [backupMatch, jsStartsWith_bkName, jsEndsWith_bkName]

theorem backupMatch_self_false {base : String}
    (hbak : jsEndsWith base ".bak" = false) : backupMatch base base = false := by
  simp [backupMatch, hbak]

theorem splitLast_inv : ∀ (p : FsPath) (d : FsPath) (b : String),
    splitLast p = some (d, b) → p = d ++ [b]
  | [], _, _ => by intro h; cases h
  | [x], d, b => by
    intro h
    simp only [splitLast, Option.some.injEq, Prod.mk.injEq] at h
    rw [← h.1, ← h.2]
    rfl
  | x :: y :: xs, d, b => by
    intro h
    simp only [splitLast] at h
    cases hsl : splitLast (y :: xs) with
    | none => rw [hsl] at h; cases h
    | some db =>
      rw [hsl] at h
      cases db with
      | mk d' b' =>
        simp only [Option.some.injEq, Prod.mk.injEq] at h
        have hrec := splitLast_inv (y :: xs) d' b' hsl
        rw [← h.1, ← h.2]
        rw [List.cons_append, ← hrec]

theorem lookup_none_iff (fs : Fs) (p : FsPath) :
    lookupFs fs p = none ↔ ∀ c, (p, c) ∉ fs := by
  induction fs with
  | nil => simp [lookupFs]
  | cons e es ih =>
    by_cases hep : e.1 = p
    · simp only [lookupFs, if_pos hep]
      constructor
      · intro h; cases h
      · intro h
        exfalso
        apply h e.2
        have he : (p, e.2) = e := Prod.ext hep.symm rfl
        rw [he]
        exact List.mem_cons_self e es
    · simp only [lookupFs, if_neg hep]
      rw [ih]
      constructor
      · intro h c hc
        rcases List.mem_cons.mp hc with hh | hh
        · exact hep (congrArg Prod.fst hh.symm)
        · exact h c hh
      · intro h c hc
        exact h c (List.mem_cons_of_mem e hc)

theorem lookup_some_mem {fs : Fs} {p : FsPath} {c : Content}
    (h : lookupFs fs p = some c) : (p, c) ∈ fs := by
  induction fs with
  | nil => cases h
  | cons e es ih =>
    by_cases hep : e.1 = p
    · simp only [lookupFs, if_pos hep, Option.some.injEq] at h
      have he : (p, c) = e := Prod.ext hep.symm h.symm
      rw [he]
      exact List.mem_cons_self e es
    · simp only [lookupFs, if_neg hep] at h
      exact List.mem_cons_of_mem e (ih h)

theorem lookup_mem_ne_none {fs : Fs} {p : FsPath} {c : Content}
    (h : (p, c) ∈ fs) : lookupFs fs p ≠ none := by
  intro hnone
  exact (lookup_none_iff fs p).mp hnone c h

/-- Directory membership is key membership. -/
theorem mem_dirEntries_iff (fs : Fs) (dir : FsPath) (b : String) :
    b ∈ dirEntries fs dir ↔ lookupFs fs (dir ++ [b]) ≠ none := by
  constructor
  · intro h
    rcases List.mem_filterMap.mp h with ⟨e, he, hge⟩
    cases hsl : splitLast e.1 with
    | none => rw [hsl] at hge; cases hge
    | some db =>
      rw [hsl] at hge
      cases db with
      | mk d' b' =>
        simp only at hge
        by_cases hd : d' = dir
        · rw [if_pos hd] at hge
          cases hge
          have hkey : e.1 = dir ++ [b] := by
            rw [← hd]; exact splitLast_inv e.1 d' b hsl
          refine lookup_mem_ne_none (c := e.2) ?_
          rw [← hkey]
          exact he
        · rw [if_neg hd] at hge; cases hge
  · intro h
    cases hl : lookupFs fs (dir ++ [b]) with
    | none => exact absurd hl h
    | some c =>
      refine List.mem_filterMap.mpr ⟨(dir ++ [b], c), lookup_some_mem hl, ?_⟩
      simp [splitLast_append]

theorem unlinkFs_of_lookup_none {fs : Fs} {p : FsPath}
    (h : lookupFs fs p = none) : unlinkFs fs p = fs := by
  induction fs with
  | nil => rfl
  | cons e es ih =>
    by_cases hep : e.1 = p
    · rw [lookupFs, if_pos hep] at h; cases h
    · rw [lookupFs, if_neg hep] at h
      simp [unlinkFs, hep, ih h]

theorem dirEntries_cons_inDir (fs : Fs) (dir : FsPath) (n : String) (c : Content) :
    dirEntries (((dir ++ [n]), c) :: fs) dir = n :: dirEntries fs dir := by
  simp [dirEntries, List.filterMap_cons, splitLast_append]

theorem lookup_foldl_unlink_none (names : List String) (dir : FsPath) (fs : Fs)
    (q : FsPath) (h : lookupFs fs q = none) :
    lookupFs (names.foldl (fun acc f => unlinkFs acc (dir ++ [f])) fs) q = none := by
  induction names generalizing fs with
  | nil => exact h
  | cons f rest ih =>
    simp only [List.foldl_cons]
    apply ih
    rw [lookup_unlinkFs]
    by_cases hq : q = dir ++ [f] <;> simp [hq, h]

theorem keys_unlink_sublist (fs : Fs) (p : FsPath) :
    ((unlinkFs fs p).map (·.1)).Sublist (fs.map (·.1)) := by
  induction fs with
  | nil => simp [unlinkFs]
  | cons e es ih =>
    by_cases hep : e.1 = p
    · simp only [unlinkFs, if_pos hep, List.map_cons]
      exact ih.cons e.1
    · simp only [unlinkFs, if_neg hep, List.map_cons]
      exact ih.cons₂ e.1

theorem wf_unlinkFs {fs : Fs} (p : FsPath) (h : WfFs fs) : WfFs (unlinkFs fs p) :=
  List.Nodup.sublist (keys_unlink_sublist fs p) h

theorem lookup_unlink_self (fs : Fs) (p : FsPath) :
    lookupFs (unlinkFs fs p) p = none := by
  rw [lookup_unlinkFs]
  simp

theorem wf_writeFs {fs : Fs} (p : FsPath) (c : Content) (h : WfFs fs) :
    WfFs (writeFs fs p c) := by
  show (((p, c) :: unlinkFs fs p).map (·.1)).Nodup
  rw [List.map_cons, List.nodup_cons]
  refine ⟨?_, wf_unlinkFs p h⟩
  intro hmem
  rcases List.mem_map.mp hmem with ⟨e, he, hq⟩
  refine lookup_mem_ne_none (c := e.2) ?_ (lookup_unlink_self fs p)
  have hpe : (p, e.2) = e := Prod.ext hq.symm rfl
  rw [hpe]
  exact he

theorem wf_renameFs {fs : Fs} (src dst : FsPath) (h : WfFs fs) :
    WfFs (renameFs fs src dst) := by
  unfold renameFs
  cases lookupFs fs src with
  | none => exact h
  | some c => exact wf_writeFs dst c (wf_unlinkFs src h)

theorem wf_foldl_unlink (names : List String) (dir : FsPath) {fs : Fs}
    (h : WfFs fs) :
    WfFs (names.foldl (fun acc f => unlinkFs acc (dir ++ [f])) fs) := by
  induction names generalizing fs with
  | nil => exact h
  | cons f rest ih =>
    simp only [List.foldl_cons]
    exact ih (wf_unlinkFs _ h)

theorem dirEntries_nodup (fs : Fs) (dir : FsPath) (h : WfFs fs) :
    (dirEntries fs dir).Nodup := by
  have hh : dirEntries fs dir = List.filterMap
      (fun p => match splitLast p with
        | some (d, b) => if d = dir then some b else none
        | none => none) (fs.map (·.1)) := by
    rw [List.filterMap_map]
    rfl
  rw [hh]
  refine List.Nodup.filterMap ?_ h
  intro a a' b hb hb'
  have key : ∀ q : FsPath, b ∈ (match splitLast q with
      | some (d, b0) => if d = dir then some b0 else none
      | none => none) → q = dir ++ [b] := by
    intro q hq
    cases hsl : splitLast q with
    | none => rw [hsl] at hq; cases hq
    | some db =>
      rw [hsl] at hq
      cases db with
      | mk d0 b0 =>
        simp only at hq
        by_cases hd : d0 = dir
        · rw [if_pos hd, Option.mem_def] at hq
          injection hq with hq2
          have hinv := splitLast_inv q d0 b0 hsl
          rw [hd, hq2] at hinv
          exact hinv
        · rw [if_neg hd] at hq; cases hq
  rw [key a hb, key a' hb']

/-- The JavaScript sort of a listing that is a permutation of timestamped
names agrees with the numeric sort of the timestamps, provided names compare
consistently with their timestamps (which holds for the equal-width decimal
timestamps `Date.now()` yields). -/
theorem jsSort_eq_map_sort (tss : List Nat) (name : Nat → String)
    (M : List String) (hperm : M.Perm (tss.map name))
    (hiso : ∀ a ∈ tss, ∀ b ∈ tss, (a ≤ b ↔ JsLE (name a) (name b))) :
    jsSort M = (List.insertionSort (fun a b : Nat => a ≤ b) tss).map name := by
  have hps := List.perm_insertionSort (fun a b : Nat => a ≤ b) tss
  have hsortNat := List.sorted_insertionSort (fun a b : Nat => a ≤ b) tss
  refine List.eq_of_perm_of_sorted (r := JsLE) ?_ ?_ ?_
  · exact (List.perm_insertionSort JsLE M).trans (hperm.trans (hps.map name).symm)
  · exact List.sorted_insertionSort JsLE M
  · refine List.pairwise_map.mpr ?_
    refine List.Pairwise.imp_of_mem ?_ hsortNat
    intro a b ha hb hab
    exact (hiso a (hps.subset ha) b (hps.subset hb)).mp hab

/-- The freshest timestamp is among the `m` newest for `m ≥ 1`. -/
theorem mem_newestTake_max (m : Nat) (hm : 1 ≤ m) (ts : Nat) (rest : List Nat)
    (hlt : ∀ t ∈ rest, t < ts) : ts ∈ newestTake m (ts :: rest) := by
  unfold newestTake
  have hperm := List.perm_insertionSort (fun a b : Nat => a ≤ b) (ts :: rest)
  have hsorted := List.sorted_insertionSort (fun a b : Nat => a ≤ b) (ts :: rest)
  have hne : (List.insertionSort (fun a b : Nat => a ≤ b) (ts :: rest)).reverse ≠ [] := by
    intro h
    have hlen := hperm.length_eq
    rw [← List.length_reverse, h] at hlen
    simp at hlen
  obtain ⟨d, dtail, hd⟩ := List.exists_cons_of_ne_nil hne
  have hdmem : d ∈ ts :: rest :=
    hperm.subset (List.mem_reverse.mp (by rw [hd]; exact List.mem_cons_self _ _))
  have htsmem : ts ∈ (List.insertionSort (fun a b : Nat => a ≤ b) (ts :: rest)).reverse := by
    rw [List.mem_reverse]
    exact hperm.symm.subset (List.mem_cons_self _ _)
  have hrev : (List.insertionSort (fun a b : Nat => a ≤ b) (ts :: rest)).reverse.Pairwise
      (fun a b : Nat => b ≤ a) := by
    rw [List.pairwise_reverse]
    exact hsorted
  have hdts : d = ts := by
    rcases List.mem_cons.mp hdmem with h | h
    · exact h
    · exfalso
      rw [hd] at htsmem
      rcases List.mem_cons.mp htsmem with h2 | h2
      · exact lt_irrefl d (h2 ▸ hlt d h)
      · rw [hd] at hrev
        have hge : ts ≤ d := (List.pairwise_cons.mp hrev).1 ts h2
        exact absurd (hlt d h) (not_lt_of_ge hge)
  obtain ⟨k, rfl⟩ : ∃ k, m = k + 1 := ⟨m - 1, (Nat.succ_pred_eq_of_pos hm).symm⟩
  rw [hd, hdts, List.take_succ_cons]
  exact List.mem_cons_self _ _

theorem lookup_renameFs_dst (fs : Fs) (src dst : FsPath) (c : Content)
    (h : lookupFs fs src = some c) :
    lookupFs (renameFs fs src dst) dst = some c := by
  simp [renameFs, h, lookup_writeFs_self]

/-- On the fault-free path the persisted target carries exactly the serialized
data. -/
theorem atomicPersist_ok_target (st : StoreOptions) (fs : Fs) (cf : Bool)
    (ts : Nat) (filename : String) (data : Json) :
    (atomicPersist st fs .ok cf ts filename data).1 = .ok ()
    ∧ lookupFs (atomicPersist st fs .ok cf ts filename data).2
        (st.basePath ++ [filename]) = some (.jsonOf data) := by
  refine ⟨rfl, ?_⟩
  show lookupFs (renameFs (writeFs (createBackup st fs ts (st.basePath ++ [filename]))
    (st.basePath ++ [tmpName filename ts]) (.jsonOf data))
    (st.basePath ++ [tmpName filename ts]) (st.basePath ++ [filename]))
    (st.basePath ++ [filename]) = some (.jsonOf data)
  exact lookup_renameFs_dst _ _ _ _ (lookup_writeFs_self _ _ _)

/-- On a faulting path the error propagates, the target is untouched (given a
filename that does not end in `.bak`), and when the cleanup unlink succeeds
the temporary file is gone. -/
theorem atomicPersist_fault (st : StoreOptions) (fs : Fs) (cf : Bool) (ts : Nat)
    (filename : String) (data : Json) (msg : String) (wf : WriteFault)
    (hbak : jsEndsWith filename ".bak" = false)
    (hwf : wf = .tempWriteFails msg ∨ wf = .renameFails msg) :
    (atomicPersist st fs wf cf ts filename data).1 = .error msg
    ∧ lookupFs (atomicPersist st fs wf cf ts filename data).2
        (st.basePath ++ [filename]) = lookupFs fs (st.basePath ++ [filename])
    ∧ (cf = false → lookupFs (atomicPersist st fs wf cf ts filename data).2
        (st.basePath ++ [tmpName filename ts]) = none) := by
  have htgt : st.basePath ++ [filename] ≠ st.basePath ++ [tmpName filename ts] :=
    fun h => tmpName_ne_filename filename ts (singleton_path_inj h).symm
  have hpt := createBackup_preserves_target st fs ts filename hbak
  rcases hwf with hwf | hwf <;> subst hwf
  · have h2 : (atomicPersist st fs (.tempWriteFails msg) cf ts filename data).2
        = if cf then createBackup st fs ts (st.basePath ++ [filename])
          else unlinkFs (createBackup st fs ts (st.basePath ++ [filename]))
            (st.basePath ++ [tmpName filename ts]) := rfl
    refine ⟨rfl, ?_, ?_⟩
    · rw [h2]
      cases cf with
      | true => simpa using hpt
      | false =>
        rw [if_neg Bool.false_ne_true, lookup_unlinkFs, if_neg htgt]
        exact hpt
    · intro hcf
      subst hcf
      rw [h2, if_neg Bool.false_ne_true, lookup_unlinkFs, if_pos rfl]
  · have h2 : (atomicPersist st fs (.renameFails msg) cf ts filename data).2
        = if cf then writeFs (createBackup st fs ts (st.basePath ++ [filename]))
              (st.basePath ++ [tmpName filename ts]) (.jsonOf data)
          else unlinkFs (writeFs (createBackup st fs ts (st.basePath ++ [filename]))
              (st.basePath ++ [tmpName filename ts]) (.jsonOf data))
            (st.basePath ++ [tmpName filename ts]) := rfl
    refine ⟨rfl, ?_, ?_⟩
    · rw [h2]
      cases cf with
      | true =>
        rw [if_pos rfl, lookup_writeFs_ne _ _ _ _ htgt]
        exact hpt
      | false =>
        rw [if_neg Bool.false_ne_true, lookup_unlinkFs, if_neg htgt,
          lookup_writeFs_ne _ _ _ _ htgt]
        exact hpt
    · intro hcf
      subst hcf
      rw [h2, if_neg Bool.false_ne_true, lookup_unlinkFs, if_pos rfl]

/-! Claim C1. -/

/-- Claim C1: `FileStore.read` returns the parsed stored document when the
file exists and parses as JSON, returns the caller-supplied default exactly
when the underlying read fails with ENOENT (the file is absent), and throws
for any other I/O failure or for an existing file that is not valid JSON. -/
theorem claim_C1_read_semantics (st : StoreOptions) (fs : Fs) (filename : String)
    (d : Json) :
    (∀ v, lookupFs fs (st.basePath ++ [filename]) = some (.jsonOf v) →
      FileStore.read st fs none filename d = .ok v)
    ∧ (lookupFs fs (st.basePath ++ [filename]) = none →
      FileStore.read st fs none filename d = .ok d)
    ∧ (∀ raw, lookupFs fs (st.basePath ++ [filename]) = some (.invalid raw) →
      FileStore.read st fs none filename d =
        .error ("Failed to read " ++ filename ++ ": JSON.parse failed"))
    ∧ (∀ msg, FileStore.read st fs (some msg) filename d =
        .error ("Failed to read " ++ filename ++ ": " ++ msg)) := by
  refine ⟨fun v h => ?_, fun h => ?_, fun raw h => ?_, fun msg => ?_⟩
  · simp [FileStore.read, h, parseContent]
  · simp [FileStore.read, h]
  · simp [FileStore.read, h, parseContent]
  · simp [FileStore.read]

/-- Witness for C1 at concrete stores: stored document, missing document,
corrupt document, and injected I/O failure. -/
theorem claim_C1_read_semantics_witness :
    FileStore.read c1st c1fs none "a.json" (.obj []) = .ok (.num 5)
    ∧ FileStore.read c1st c1fs none "missing.json" (.obj []) = .ok (.obj [])
    ∧ FileStore.read c1st c1fs none "bad.json" (.obj []) =
        .error "Failed to read bad.json: JSON.parse failed"
    ∧ FileStore.read c1st c1fs (some "EACCES") "a.json" (.obj []) =
        .error "Failed to read a.json: EACCES" :=
  ⟨(claim_C1_read_semantics c1st c1fs "a.json" (.obj [])).1 (.num 5) rfl,
   (claim_C1_read_semantics c1st c1fs "missing.json" (.obj [])).2.1 rfl,
   (claim_C1_read_semantics c1st c1fs "bad.json" (.obj [])).2.2.1 "nope" rfl,
   (claim_C1_read_semantics c1st c1fs "a.json" (.obj [])).2.2.2 "EACCES"⟩

/-! Claim C2. -/

/-- Claim C2 (amended): when writing the new content to the temporary path or
renaming it onto the target fails, both `write` and `append` unlink the
temporary file (a failing cleanup unlink is ignored), propagate the original
error, and leave the existing target file's content unchanged — provided the
target filename does not itself end in `.bak`.  (Without that proviso the
backup-rotation step can delete the target, see the counterexample.)  The
`append` conjunct additionally assumes the prior content is absent, corrupt,
or an array, i.e. that `existing.push` does not throw before the write
starts. -/
theorem claim_C2_failure_semantics (st : StoreOptions) (fs : Fs) (ts : Nat)
    (filename : String) (data item : Json) (msg : String) (cf : Bool)
    (wf : WriteFault)
    (hbak : jsEndsWith filename ".bak" = false)
    (hwf : wf = .tempWriteFails msg ∨ wf = .renameFails msg)
    (hprior : lookupFs fs (st.basePath ++ [filename]) = none
      ∨ (∃ raw, lookupFs fs (st.basePath ++ [filename]) = some (.invalid raw))
      ∨ (∃ xs, lookupFs fs (st.basePath ++ [filename]) = some (.jsonOf (.arr xs)))) :
    ((FileStore.write st fs wf cf ts filename data).1 = .error msg
      ∧ lookupFs (FileStore.write st fs wf cf ts filename data).2
          (st.basePath ++ [filename]) = lookupFs fs (st.basePath ++ [filename])
      ∧ (cf = false → lookupFs (FileStore.write st fs wf cf ts filename data).2
          (st.basePath ++ [tmpName filename ts]) = none))
    ∧ ((FileStore.append st fs wf cf ts filename item).1 = .error msg
      ∧ lookupFs (FileStore.append st fs wf cf ts filename item).2
          (st.basePath ++ [filename]) = lookupFs fs (st.basePath ++ [filename])
      ∧ (cf = false → lookupFs (FileStore.append st fs wf cf ts filename item).2
          (st.basePath ++ [tmpName filename ts]) = none)) := by
  constructor
  · exact atomicPersist_fault st fs cf ts filename data msg wf hbak hwf
  · have happ : ∃ xs, FileStore.append st fs wf cf ts filename item
        = atomicPersist st fs wf cf ts filename (.arr (xs ++ [item])) := by
      rcases hprior with h | ⟨raw, h⟩ | ⟨xs, h⟩
      · exact ⟨[], by simp [FileStore.append, h]⟩
      · exact ⟨[], by simp [FileStore.append, h, parseContent]⟩
      · exact ⟨xs, by simp [FileStore.append, h, parseContent]⟩
    rcases happ with ⟨xs, happ⟩
    rw [happ]
    exact atomicPersist_fault st fs cf ts filename (.arr (xs ++ [item])) msg wf hbak hwf

/-- Counterexample to C2 as stated: writing to the target `d.bak` (with three
prior backups, default retention 3, `Date.now() = 104`) under a failing
temporary-file write propagates the error but does NOT leave the existing
target untouched — the backup-rotation step already deleted it, because the
target's own name matches the rotation filter `startsWith(basename)` and
`endsWith(".bak")` and sorts last (oldest) among the backups. -/
theorem claim_C2_counterexample :
    lookupFs c2fs ["ctx", "d.bak"] = some (.jsonOf (.num 7))
    ∧ (FileStore.write c2st c2fs (.tempWriteFails "EACCES") false 104 "d.bak" (.num 8)).1
        = .error "EACCES"
    ∧ lookupFs (FileStore.write c2st c2fs (.tempWriteFails "EACCES") false 104 "d.bak"
        (.num 8)).2 ["ctx", "d.bak"] = none :=
  ⟨rfl, rfl, rfl⟩

/-- Witness for the amended C2 at a concrete store: a normal `.json` filename,
an existing target, a failing temp write and a failing rename. -/
theorem claim_C2_failure_semantics_witness :
    jsEndsWith "a.json" ".bak" = false
    ∧ (FileStore.write c2st [(["ctx", "a.json"], .jsonOf (.arr [.num 1]))]
        (.renameFails "EIO") false 104 "a.json" (.num 8)).1 = .error "EIO"
    ∧ lookupFs (FileStore.write c2st [(["ctx", "a.json"], .jsonOf (.arr [.num 1]))]
        (.renameFails "EIO") false 104 "a.json" (.num 8)).2 ["ctx", "a.json"]
        = lookupFs [(["ctx", "a.json"], .jsonOf (.arr [.num 1]))] ["ctx", "a.json"]
    ∧ (FileStore.append c2st [(["ctx", "a.json"], .jsonOf (.arr [.num 1]))]
        (.renameFails "EIO") false 104 "a.json" (.num 8)).1 = .error "EIO" := by
  have h := claim_C2_failure_semantics c2st
    [(["ctx", "a.json"], .jsonOf (.arr [.num 1]))] 104 "a.json" (.num 8) (.num 8)
    "EIO" false (.renameFails "EIO") rfl (Or.inr rfl)
    (Or.inr (Or.inr ⟨[.num 1], rfl⟩))
  exact ⟨rfl, h.1.1, h.1.2.1, h.2.1⟩

/-! Claim C3. -/

/-- Claim C3: for every JSON-representable value, filename and default,
`write` followed by `read` returns the value just written (deep equality is
equality of the JSON trees), in particular for empty mappings and empty
sequences.  No hypotheses: this holds on any prior file-system state. -/
theorem claim_C3_write_read_roundtrip (st : StoreOptions) (fs : Fs) (ts : Nat)
    (filename : String) (v d : Json) :
    FileStore.read st
      (FileStore.write st fs .ok false ts filename v).2 none filename d = .ok v := by
  have h := (atomicPersist_ok_target st fs false ts filename v).2
  show FileStore.read st (atomicPersist st fs .ok false ts filename v).2 none filename d = .ok v
  simp [FileStore.read, h, parseContent]

/-! Claim C4. -/

/-- Claim C4 (amended): writing to an existing target with backups enabled and
retention `maxBackups ≥ 1` creates a backup of the prior content named
`<filename>.<Date.now()>.bak`, and afterwards the backups that remain for the
target are exactly the `maxBackups` newest by embedded timestamp (older ones
deleted, retained ones with their contents intact) — provided the target's
filename does not itself end in `.bak`, no other file in the directory matches
the target's prefix-plus-`.bak` rotation filter besides the target's own
backups (see the counterexample for the interference otherwise), and backup
names compare lexicographically in timestamp order, as the equal-width decimal
values of `Date.now()` do. -/
theorem claim_C4_backup_rotation (st : StoreOptions) (fs : Fs) (ts : Nat)
    (filename : String) (c : Content) (data : Json) (prevTss : List Nat)
    (hwf : WfFs fs)
    (hen : st.enableBackup = true)
    (hm : 1 ≤ st.maxBackups)
    (htgt : lookupFs fs (st.basePath ++ [filename]) = some c)
    (hbakf : jsEndsWith filename ".bak" = false)
    (htmp : backupMatch filename (tmpName filename ts) = false)
    (hnodup : prevTss.Nodup)
    (hfresh : ∀ t ∈ prevTss, t < ts)
    (hiso : ∀ a ∈ ts :: prevTss, ∀ b ∈ ts :: prevTss,
      (a ≤ b ↔ JsLE (bkName filename a) (bkName filename b)))
    (hmatch : ∀ f ∈ dirEntries fs st.basePath,
      (backupMatch filename f = true ↔ ∃ t ∈ prevTss, f = bkName filename t))
    (hprev : ∀ t ∈ prevTss,
      (lookupFs fs (st.basePath ++ [bkName filename t])).isSome = true) :
    (FileStore.write st fs .ok false ts filename data).1 = .ok ()
    ∧ lookupFs (FileStore.write st fs .ok false ts filename data).2
        (st.basePath ++ [filename]) = some (.jsonOf data)
    ∧ lookupFs (FileStore.write st fs .ok false ts filename data).2
        (st.basePath ++ [bkName filename ts]) = some c
    ∧ (∀ f, backupMatch filename f = true →
        (f ∈ dirEntries (FileStore.write st fs .ok false ts filename data).2 st.basePath
          ↔ f ∈ (newestTake st.maxBackups (ts :: prevTss)).map (bkName filename)))
    ∧ (∀ t ∈ prevTss, t ∈ newestTake st.maxBackups (ts :: prevTss) →
        lookupFs (FileStore.write st fs .ok false ts filename data).2
          (st.basePath ++ [bkName filename t])
        = lookupFs fs (st.basePath ++ [bkName filename t]))
    ∧ ((dirEntries (FileStore.write st fs .ok false ts filename data).2 st.basePath).filter
        (fun f => backupMatch filename f)).length
        = min st.maxBackups (prevTss.length + 1) := by
  have hen' : (!st.enableBackup) = false := by rw [hen]; rfl
  have hAllNodup : (ts :: prevTss).Nodup :=
    List.nodup_cons.mpr ⟨fun hmem => lt_irrefl ts (hfresh ts hmem), hnodup⟩
  have hinj : ∀ a ∈ ts :: prevTss, ∀ b ∈ ts :: prevTss,
      bkName filename a = bkName filename b → a = b := by
    intro a ha b hb heq
    have h1 : a ≤ b := (hiso a ha b hb).mpr (by rw [heq]; exact jsLE_refl _)
    have h2 : b ≤ a := (hiso b hb a ha).mpr (by rw [heq]; exact jsLE_refl _)
    exact le_antisymm h1 h2
  have hNamesNodup : (((ts :: prevTss)).map (bkName filename)).Nodup :=
    List.Nodup.map_on hinj hAllNodup
  have hnew_notin : bkName filename ts ∉ dirEntries fs st.basePath := by
    intro hmem
    obtain ⟨t, ht, heq⟩ := (hmatch _ hmem).mp (backupMatch_bkName filename ts)
    have hts : ts = t := hinj ts (List.mem_cons_self _ _) t
      (List.mem_cons_of_mem _ ht) heq
    exact lt_irrefl t (hts ▸ hfresh t ht)
  have hlknew : lookupFs fs (st.basePath ++ [bkName filename ts]) = none := by
    cases hlk : lookupFs fs (st.basePath ++ [bkName filename ts]) with
    | none => rfl
    | some c0 =>
      exact absurd ((mem_dirEntries_iff fs st.basePath (bkName filename ts)).mpr
        (by rw [hlk]; exact fun hx => Option.noConfusion hx)) hnew_notin
  have hcb : createBackup st fs ts (st.basePath ++ [filename])
      = ((sortedBackups (dirEntries (writeFs fs (st.basePath ++ [bkName filename ts]) c)
          st.basePath) filename).drop st.maxBackups).foldl
          (fun acc f => unlinkFs acc (st.basePath ++ [f]))
          (writeFs fs (st.basePath ++ [bkName filename ts]) c) := by
    unfold createBackup
    rw [hen', if_neg Bool.false_ne_true, splitLast_append, htgt]
  set fs1 : Fs := writeFs fs (st.basePath ++ [bkName filename ts]) c with hfs1def
  set backups : List String := sortedBackups (dirEntries fs1 st.basePath) filename
    with hbackupsdef
  set fsB : Fs := (backups.drop st.maxBackups).foldl
    (fun acc f => unlinkFs acc (st.basePath ++ [f])) fs1 with hfsBdef
  set fsW : Fs := (FileStore.write st fs .ok false ts filename data).2 with hfsWdef
  have hw2 : fsW = renameFs (writeFs (createBackup st fs ts (st.basePath ++ [filename]))
      (st.basePath ++ [tmpName filename ts]) (.jsonOf data))
      (st.basePath ++ [tmpName filename ts]) (st.basePath ++ [filename]) := rfl
  rw [hcb] at hw2
  have hren : fsW = writeFs (unlinkFs (writeFs fsB
      (st.basePath ++ [tmpName filename ts]) (.jsonOf data))
      (st.basePath ++ [tmpName filename ts])) (st.basePath ++ [filename]) (.jsonOf data) := by
    rw [hw2]
    unfold renameFs
    rw [lookup_writeFs_self]
  have hstep : ∀ f : String, f ≠ filename → f ≠ tmpName filename ts →
      lookupFs fsW (st.basePath ++ [f]) = lookupFs fsB (st.basePath ++ [f]) := by
    intro f hf1 hf2
    rw [hren,
      lookup_writeFs_ne _ _ _ _ (fun h => hf1 (singleton_path_inj h)),
      lookup_unlinkFs, if_neg (fun h => hf2 (singleton_path_inj h)),
      lookup_writeFs_ne _ _ _ _ (fun h => hf2 (singleton_path_inj h))]
  have hfs1' : fs1 = (st.basePath ++ [bkName filename ts], c) :: fs := by
    rw [hfs1def]
    show (st.basePath ++ [bkName filename ts], c) :: unlinkFs fs _ = _
    rw [unlinkFs_of_lookup_none hlknew]
  have hDE1 : dirEntries fs1 st.basePath
      = bkName filename ts :: dirEntries fs st.basePath := by
    rw [hfs1', dirEntries_cons_inDir]
  have hMfilter : (dirEntries fs1 st.basePath).filter (fun f => backupMatch filename f)
      = bkName filename ts ::
        (dirEntries fs st.basePath).filter (fun f => backupMatch filename f) := by
    rw [hDE1, List.filter_cons_of_pos (backupMatch_bkName filename ts)]
  have hM0perm : ((dirEntries fs st.basePath).filter
      (fun f => backupMatch filename f)).Perm (prevTss.map (bkName filename)) := by
    refine List.perm_of_nodup_nodup_toFinset_eq
      ((dirEntries_nodup fs st.basePath hwf).filter _)
      (List.nodup_cons.mp hNamesNodup).2 ?_
    refine Finset.ext fun a => ?_
    simp only [List.mem_toFinset, List.mem_filter, List.mem_map]
    constructor
    · intro ⟨hde, hbm⟩
      obtain ⟨t, ht, heq⟩ := (hmatch a hde).mp hbm
      exact ⟨t, ht, heq.symm⟩
    · intro ⟨t, ht, heq⟩
      subst heq
      refine ⟨(mem_dirEntries_iff fs st.basePath _).mpr ?_, backupMatch_bkName _ _⟩
      intro hnone
      have hp := hprev t ht
      rw [hnone] at hp
      exact Bool.false_ne_true hp
  have hMperm : ((dirEntries fs1 st.basePath).filter
      (fun f => backupMatch filename f)).Perm ((ts :: prevTss).map (bkName filename)) := by
    rw [hMfilter]
    exact hM0perm.cons (bkName filename ts)
  have hbkeq : backups = ((List.insertionSort (fun a b : Nat => a ≤ b)
      (ts :: prevTss)).map (bkName filename)).reverse := by
    rw [hbackupsdef]
    show (jsSort ((dirEntries fs1 st.basePath).filter (fun f => backupMatch filename f))).reverse = _
    rw [jsSort_eq_map_sort (ts :: prevTss) (bkName filename) _ hMperm hiso]
  have hkept : backups.take st.maxBackups
      = (newestTake st.maxBackups (ts :: prevTss)).map (bkName filename) := by
    rw [hbkeq, ← List.map_reverse, ← List.map_take]
    rfl
  have hdropped : backups.drop st.maxBackups
      = (((List.insertionSort (fun a b : Nat => a ≤ b) (ts :: prevTss)).reverse).drop
          st.maxBackups).map (bkName filename) := by
    rw [hbkeq, ← List.map_reverse, ← List.map_drop]
  have hBperm : backups.Perm ((ts :: prevTss).map (bkName filename)) := by
    rw [hbkeq]
    exact (List.reverse_perm _).trans
      ((List.perm_insertionSort _ _).map (bkName filename))
  have hBnodup : backups.Nodup := hBperm.nodup_iff.mpr hNamesNodup
  have hBM : backups.Perm ((dirEntries fs1 st.basePath).filter
      (fun f => backupMatch filename f)) := hBperm.trans hMperm.symm
  have hdisj : ∀ f, f ∈ backups.take st.maxBackups →
      f ∈ backups.drop st.maxBackups → False := by
    intro f h1 h2
    have := hBnodup
    rw [← List.take_append_drop st.maxBackups backups, List.nodup_append] at this
    exact this.2.2 h1 h2
  have hmatched_ne : ∀ f : String, backupMatch filename f = true →
      f ≠ filename ∧ f ≠ tmpName filename ts := by
    intro f hf
    constructor
    · intro h
      rw [h, backupMatch_self_false hbakf] at hf
      exact Bool.false_ne_true hf
    · intro h
      rw [h, htmp] at hf
      exact Bool.false_ne_true hf
  have hlkB_kept : ∀ f, backupMatch filename f = true →
      f ∈ backups.take st.maxBackups →
      lookupFs fsB (st.basePath ++ [f]) = lookupFs fs1 (st.basePath ++ [f]) := by
    intro f hf hfk
    rw [hfsBdef]
    apply lookup_foldl_unlink_ne
    intro g hg h
    exact hdisj f hfk ((singleton_path_inj h) ▸ hg)
  have hlkB_dropped : ∀ f, f ∈ backups.drop st.maxBackups →
      lookupFs fsB (st.basePath ++ [f]) = none := by
    intro f hfd
    rw [hfsBdef]
    exact lookup_foldl_unlink_mem _ _ _ _ hfd
  have hlkB_out : ∀ f, backupMatch filename f = true → f ∉ backups →
      lookupFs fsB (st.basePath ++ [f]) = none := by
    intro f hf hout
    rw [hfsBdef]
    apply lookup_foldl_unlink_none
    cases hlk : lookupFs fs1 (st.basePath ++ [f]) with
    | none => rfl
    | some c0 =>
      exfalso
      apply hout
      apply hBM.symm.subset
      refine List.mem_filter.mpr ⟨?_, hf⟩
      exact (mem_dirEntries_iff fs1 st.basePath f).mpr (by rw [hlk]; exact fun hx => Option.noConfusion hx)
  have hts_kept : bkName filename ts ∈ backups.take st.maxBackups := by
    rw [hkept]
    exact List.mem_map_of_mem (bkName filename)
      (mem_newestTake_max st.maxBackups hm ts prevTss hfresh)
  refine ⟨rfl, ?_, ?_, ?_, ?_, ?_⟩
  · have := (atomicPersist_ok_target st fs false ts filename data).2
    exact this
  · -- the fresh backup holds the prior content
    rw [hstep (bkName filename ts) (bkName_ne_filename filename ts)
        (hmatched_ne _ (backupMatch_bkName filename ts)).2,
      hlkB_kept _ (backupMatch_bkName filename ts) hts_kept, hfs1def,
      lookup_writeFs_self]
  · -- remaining backups are exactly the newest maxBackups
    intro f hf
    rw [mem_dirEntries_iff, hstep f (hmatched_ne f hf).1 (hmatched_ne f hf).2, ← hkept]
    by_cases hin : f ∈ backups
    · rw [← List.take_append_drop st.maxBackups backups, List.mem_append] at hin
      rcases hin with hin | hin
      · constructor
        · intro _; exact hin
        · intro _
          rw [hlkB_kept f hf hin]
          have hfM : f ∈ (dirEntries fs1 st.basePath).filter
              (fun g => backupMatch filename g) :=
            hBM.subset (List.mem_of_mem_take hin)
          exact (mem_dirEntries_iff fs1 st.basePath f).mp (List.mem_filter.mp hfM).1
      · rw [hlkB_dropped f hin]
        constructor
        · intro h; exact absurd rfl h
        · intro h; exact absurd (hdisj f h hin) not_false
    · rw [hlkB_out f hf hin]
      constructor
      · intro h; exact absurd rfl h
      · intro h
        exact absurd (List.mem_of_mem_take h) hin
  · -- retained old backups keep their contents
    intro t ht htk
    have hbm := backupMatch_bkName filename t
    rw [hstep (bkName filename t) (bkName_ne_filename filename t) (hmatched_ne _ hbm).2]
    have htkept : bkName filename t ∈ backups.take st.maxBackups := by
      rw [hkept]
      exact List.mem_map_of_mem (bkName filename) htk
    rw [hlkB_kept _ hbm htkept, hfs1def]
    apply lookup_writeFs_ne
    intro h
    have := hinj t (List.mem_cons_of_mem _ ht) ts (List.mem_cons_self _ _)
      (singleton_path_inj h)
    exact lt_irrefl ts (this ▸ hfresh t ht)
  · -- exactly min(maxBackups, prev + 1) matching names remain
    have hwfW : WfFs fsW := by
      rw [hren]
      exact wf_writeFs _ _ (wf_unlinkFs _ (wf_writeFs _ _
        (by rw [hfsBdef]; exact wf_foldl_unlink _ _ (by rw [hfs1def]; exact wf_writeFs _ _ hwf))))
    have hFnodup : ((dirEntries fsW st.basePath).filter
        (fun f => backupMatch filename f)).Nodup :=
      (dirEntries_nodup fsW st.basePath hwfW).filter _
    have hKnodup : (backups.take st.maxBackups).Nodup :=
      List.Nodup.sublist (List.take_sublist _ _) hBnodup
    have hmem : ∀ f, f ∈ (dirEntries fsW st.basePath).filter
        (fun g => backupMatch filename g) ↔ f ∈ backups.take st.maxBackups := by
      intro f
      rw [List.mem_filter]
      constructor
      · intro ⟨hde, hbm⟩
        have := hstep f (hmatched_ne f hbm).1 (hmatched_ne f hbm).2
        rw [mem_dirEntries_iff, this] at hde
        by_cases hin : f ∈ backups
        · rw [← List.take_append_drop st.maxBackups backups, List.mem_append] at hin
          rcases hin with hin | hin
          · exact hin
          · rw [hlkB_dropped f hin] at hde
            exact absurd rfl hde
        · rw [hlkB_out f hbm hin] at hde
          exact absurd rfl hde
      · intro hin
        have hbm : backupMatch filename f = true := by
          have hfM : f ∈ (dirEntries fs1 st.basePath).filter
              (fun g => backupMatch filename g) :=
            hBM.subset (List.mem_of_mem_take hin)
          exact (List.mem_filter.mp hfM).2
        refine ⟨?_, hbm⟩
        rw [mem_dirEntries_iff, hstep f (hmatched_ne f hbm).1 (hmatched_ne f hbm).2,
          hlkB_kept f hbm hin]
        have hfM : f ∈ (dirEntries fs1 st.basePath).filter
            (fun g => backupMatch filename g) :=
          hBM.subset (List.mem_of_mem_take hin)
        exact (mem_dirEntries_iff fs1 st.basePath f).mp (List.mem_filter.mp hfM).1
    have hperm : ((dirEntries fsW st.basePath).filter
        (fun f => backupMatch filename f)).Perm (backups.take st.maxBackups) := by
      refine List.perm_of_nodup_nodup_toFinset_eq hFnodup hKnodup ?_
      exact Finset.ext fun a => by
        simp only [List.mem_toFinset]
        exact hmem a
    rw [hperm.length_eq, List.length_take, hBperm.length_eq, List.length_map,
      List.length_cons]

/-- Counterexample to C4 as stated: with target `a` (three prior backups
stamped 100-102, retention 3, `Date.now() = 103`), a backup of the sibling
target `ab` also matches `a`'s rotation filter (`startsWith("a")` and
`endsWith(".bak")`) and sorts above every backup of `a`, so the rotation
deletes `a.101.bak` — one of the three newest backups of `a` — rather than
keeping exactly the three newest. -/
theorem claim_C4_counterexample :
    lookupFs c4fs ["ctx", "a.101.bak"] = some (.jsonOf (.num 101))
    ∧ (FileStore.write c4st c4fs .ok false 103 "a" (.num 1)).1 = .ok ()
    ∧ lookupFs (FileStore.write c4st c4fs .ok false 103 "a" (.num 1)).2
        ["ctx", "a.101.bak"] = none
    ∧ lookupFs (FileStore.write c4st c4fs .ok false 103 "a" (.num 1)).2
        ["ctx", "a.103.bak"] = some (.jsonOf (.num 0))
    ∧ lookupFs (FileStore.write c4st c4fs .ok false 103 "a" (.num 1)).2
        ["ctx", "ab.900.bak"] = some (.jsonOf (.num 900)) :=
  ⟨rfl, rfl, rfl, rfl, rfl⟩

/-- Witness for the amended C4 at a concrete store: writing to `data.json`
with three prior backups (timestamps 100-102, retention 3, new timestamp 103)
creates `data.json.103.bak` holding the prior content and leaves exactly the
three newest backups. -/
theorem claim_C4_backup_rotation_witness :
    (FileStore.write c4st c4wfs .ok false 103 "data.json" (.num 1)).1 = .ok ()
    ∧ lookupFs (FileStore.write c4st c4wfs .ok false 103 "data.json" (.num 1)).2
        ["ctx", "data.json.103.bak"] = some (.jsonOf (.num 0))
    ∧ (∀ f, backupMatch "data.json" f = true →
        (f ∈ dirEntries (FileStore.write c4st c4wfs .ok false 103 "data.json"
            (.num 1)).2 ["ctx"]
          ↔ f ∈ (newestTake 3 [103, 100, 101, 102]).map (bkName "data.json")))
    ∧ ((dirEntries (FileStore.write c4st c4wfs .ok false 103 "data.json"
        (.num 1)).2 ["ctx"]).filter (fun f => backupMatch "data.json" f)).length
        = min 3 4 := by
  have h := claim_C4_backup_rotation c4st c4wfs 103 "data.json" (.jsonOf (.num 0))
    (.num 1) [100, 101, 102] (by decide) rfl (by decide) rfl (by decide) (by decide)
    (by decide) (by decide) (by decide) (by decide) (by decide)
  exact ⟨h.1, h.2.2.1, h.2.2.2.1, h.2.2.2.2.2⟩

/-! Lemmas for the lock machine (claims C5 and C6). -/

theorem getLock_setLock_self (L : LockMap) (p : String) (s0 : PathLock) :
    getLock (setLock L p s0) p = s0 := by
  induction L with
  | nil => simp [setLock, getLock]
  | cons e es ih =>
    by_cases hep : e.1 = p
    · simp [setLock, getLock, hep]
    · simp [setLock, getLock, hep, ih]

theorem getLock_setLock_ne (L : LockMap) (p q : String) (s0 : PathLock)
    (h : q ≠ p) : getLock (setLock L p s0) q = getLock L q := by
  induction L with
  | nil => simp [setLock, getLock, Ne.symm h]
  | cons e es ih =>
    by_cases hep : e.1 = p
    · simp [setLock, getLock, hep, Ne.symm h, ih]
    · by_cases heq : e.1 = q
      · simp [setLock, getLock, hep, heq, h]
      · simp [setLock, getLock, hep, heq, ih]

theorem getLock_delLock_self (L : LockMap) (p : String) :
    getLock (delLock L p) p = ⟨none, []⟩ := by
  induction L with
  | nil => simp [delLock, getLock]
  | cons e es ih =>
    by_cases hep : e.1 = p
    · simp [delLock, hep, ih]
    · simp [delLock, getLock, hep, ih]

theorem getLock_delLock_ne (L : LockMap) (p q : String) (h : q ≠ p) :
    getLock (delLock L p) q = getLock L q := by
  induction L with
  | nil => simp [delLock, getLock]
  | cons e es ih =>
    by_cases hep : e.1 = p
    · rw [show delLock (e :: es) p = delLock es p by simp [delLock, hep], ih]
      have : e.1 ≠ q := fun hq => h (by rw [← hq, hep])
      simp [getLock, this]
    · by_cases heq : e.1 = q
      · simp [delLock, getLock, hep, heq, h]
      · simp [delLock, getLock, hep, heq, ih]

theorem hasLock_delLock_self (L : LockMap) (p : String) :
    hasLock (delLock L p) p = false := by
  induction L with
  | nil => rfl
  | cons e es ih =>
    by_cases hep : e.1 = p
    · simp [delLock, hep, ih]
    · simp [delLock, hasLock, hep, ih]

theorem startedOn_append (p : String) (t1 t2 : List LockTraceEv) :
    startedOn p (t1 ++ t2) = startedOn p t1 ++ startedOn p t2 :=
  List.filterMap_append _ _ _

theorem arrivedOn_append (p : String) (t1 t2 : List LockTraceEv) :
    arrivedOn p (t1 ++ t2) = arrivedOn p t1 ++ arrivedOn p t2 :=
  List.filterMap_append _ _ _

theorem completedOn_append (p : String) (t1 t2 : List LockTraceEv) :
    completedOn p (t1 ++ t2) = completedOn p t1 ++ completedOn p t2 :=
  List.filterMap_append _ _ _

theorem startedOn_arrived (p q : String) (op : Nat) :
    startedOn p [LockTraceEv.arrived op q] = [] := rfl

theorem startedOn_started (p q : String) (op : Nat) :
    startedOn p [LockTraceEv.started op q] = if q = p then [op] else [] := by
  by_cases h : q = p <;> simp [startedOn, List.filterMap_cons, h]

theorem startedOn_completed (p q : String) (op : Nat) (ok : Bool) :
    startedOn p [LockTraceEv.completed op q ok] = [] := rfl

theorem arrivedOn_arrived (p q : String) (op : Nat) :
    arrivedOn p [LockTraceEv.arrived op q] = if q = p then [op] else [] := by
  by_cases h : q = p <;> simp [arrivedOn, List.filterMap_cons, h]

theorem arrivedOn_started (p q : String) (op : Nat) :
    arrivedOn p [LockTraceEv.started op q] = [] := rfl

theorem arrivedOn_completed (p q : String) (op : Nat) (ok : Bool) :
    arrivedOn p [LockTraceEv.completed op q ok] = [] := rfl

theorem completedOn_arrived (p q : String) (op : Nat) :
    completedOn p [LockTraceEv.arrived op q] = [] := rfl

theorem completedOn_started (p q : String) (op : Nat) :
    completedOn p [LockTraceEv.started op q] = [] := rfl

theorem completedOn_completed (p q : String) (op : Nat) (ok : Bool) :
    completedOn p [LockTraceEv.completed op q ok] = if q = p then [op] else [] := by
  by_cases h : q = p <;> simp [completedOn, List.filterMap_cons, h]

theorem two_cons_eq_append {α : Type} (a b : α) : ([a, b] : List α) = [a] ++ [b] := rfl

/-! Lemmas for the refined lock machine (claim C5). -/

theorem getLockW_setLockW_self (L : LockMapW) (p : String) (st : PathLockW) :
    getLockW (setLockW L p st) p = st := by
  induction L with
  | nil => simp [setLockW, getLockW]
  | cons e es ih =>
    by_cases hep : e.1 = p
    · simp [setLockW, getLockW, hep]
    · simp [setLockW, getLockW, hep, ih]

theorem getLockW_setLockW_ne (L : LockMapW) (p q : String) (st : PathLockW)
    (h : ¬ p = q) : getLockW (setLockW L p st) q = getLockW L q := by
  induction L with
  | nil => simp [setLockW, getLockW, h]
  | cons e es ih =>
    by_cases hep : e.1 = p
    · simp [setLockW, getLockW, hep, h, ih]
    · by_cases heq : e.1 = q
      · have hqp : ¬ q = p := fun hh => h hh.symm
        simp [setLockW, getLockW, hep, heq, hqp]
      · simp [setLockW, getLockW, hep, heq, ih]

/-- Observations emitted by a per-path transition concern that path. -/
theorem pathStep_tePath (e : LockEvW) (pl : PathLockW) (ev : LockTraceEv)
    (h : ev ∈ (pathStep e pl).2) : tePath ev = evPath e := by
  obtain ⟨hol, w, k⟩ := pl
  cases e with
  | arrive op p =>
    cases hol with
    | none =>
      simp only [pathStep, List.mem_cons, List.not_mem_nil, or_false] at h
      rcases h with rfl | rfl <;> rfl
    | some h0 =>
      simp only [pathStep, List.mem_cons, List.not_mem_nil, or_false] at h
      subst h
      rfl
  | finish p ok =>
    cases hol with
    | none => simp only [pathStep, List.not_mem_nil] at h
    | some h0 =>
      simp only [pathStep, List.mem_cons, List.not_mem_nil, or_false] at h
      subst h
      rfl
  | wake p =>
    cases k with
    | nil => cases hol <;> simp only [pathStep, List.not_mem_nil] at h
    | cons n rest =>
      cases hol with
      | none =>
        simp only [pathStep, List.mem_cons, List.not_mem_nil, or_false] at h
        subst h
        rfl
      | some h0 => simp only [pathStep, List.not_mem_nil] at h

theorem startedOn_all_ne (p : String) (tr : List LockTraceEv)
    (h : ∀ ev ∈ tr, ¬ tePath ev = p) : startedOn p tr = [] := by
  induction tr with
  | nil => rfl
  | cons ev tr ih =>
    have hev := h ev (List.mem_cons_self _ _)
    have ih' := ih fun e he => h e (List.mem_cons_of_mem _ he)
    rw [show ev :: tr = [ev] ++ tr from rfl, startedOn_append, ih', List.append_nil]
    cases ev with
    | arrived op q => exact startedOn_arrived p q op
    | started op q =>
      have hq : ¬ q = p := hev
      rw [startedOn_started, if_neg hq]
    | completed op q ok => exact startedOn_completed p q op ok

theorem arrivedOn_all_ne (p : String) (tr : List LockTraceEv)
    (h : ∀ ev ∈ tr, ¬ tePath ev = p) : arrivedOn p tr = [] := by
  induction tr with
  | nil => rfl
  | cons ev tr ih =>
    have hev := h ev (List.mem_cons_self _ _)
    have ih' := ih fun e he => h e (List.mem_cons_of_mem _ he)
    rw [show ev :: tr = [ev] ++ tr from rfl, arrivedOn_append, ih', List.append_nil]
    cases ev with
    | arrived op q =>
      have hq : ¬ q = p := hev
      rw [arrivedOn_arrived, if_neg hq]
    | started op q => exact arrivedOn_started p q op
    | completed op q ok => exact arrivedOn_completed p q op ok

theorem completedOn_all_ne (p : String) (tr : List LockTraceEv)
    (h : ∀ ev ∈ tr, ¬ tePath ev = p) : completedOn p tr = [] := by
  induction tr with
  | nil => rfl
  | cons ev tr ih =>
    have hev := h ev (List.mem_cons_self _ _)
    have ih' := ih fun e he => h e (List.mem_cons_of_mem _ he)
    rw [show ev :: tr = [ev] ++ tr from rfl, completedOn_append, ih', List.append_nil]
    cases ev with
    | arrived op q => exact completedOn_arrived p q op
    | started op q => exact completedOn_started p q op
    | completed op q ok =>
      have hq : ¬ q = p := hev
      rw [completedOn_completed, if_neg hq]

/-- A refined step on another path changes nothing observable at `p`. -/
theorem lockStepW_offPath (s : LockSysW) (e : LockEvW) (p : String)
    (h : ¬ evPath e = p) :
    getLockW (lockStepW s e).locks p = getLockW s.locks p
    ∧ startedOn p (lockStepW s e).trace = startedOn p s.trace
    ∧ arrivedOn p (lockStepW s e).trace = arrivedOn p s.trace
    ∧ completedOn p (lockStepW s e).trace = completedOn p s.trace := by
  have htr : ∀ ev ∈ (pathStep e (getLockW s.locks (evPath e))).2,
      ¬ tePath ev = p := by
    intro ev hev hc
    rw [pathStep_tePath e _ ev hev] at hc
    exact h hc
  refine ⟨getLockW_setLockW_ne _ _ _ _ h, ?_, ?_, ?_⟩
  · show startedOn p (s.trace ++ _) = startedOn p s.trace
    rw [startedOn_append, startedOn_all_ne p _ htr, List.append_nil]
  · show arrivedOn p (s.trace ++ _) = arrivedOn p s.trace
    rw [arrivedOn_append, arrivedOn_all_ne p _ htr, List.append_nil]
  · show completedOn p (s.trace ++ _) = completedOn p s.trace
    rw [completedOn_append, completedOn_all_ne p _ htr, List.append_nil]

/-- Two states agreeing at `p` still agree at `p` after one refined step
on `p`. -/
theorem lockStepW_onPath_congr (s t : LockSysW) (e : LockEvW) (p : String)
    (hev : evPath e = p)
    (e1 : getLockW s.locks p = getLockW t.locks p)
    (e2 : startedOn p s.trace = startedOn p t.trace)
    (e3 : arrivedOn p s.trace = arrivedOn p t.trace)
    (e4 : completedOn p s.trace = completedOn p t.trace) :
    getLockW (lockStepW s e).locks p = getLockW (lockStepW t e).locks p
    ∧ startedOn p (lockStepW s e).trace = startedOn p (lockStepW t e).trace
    ∧ arrivedOn p (lockStepW s e).trace = arrivedOn p (lockStepW t e).trace
    ∧ completedOn p (lockStepW s e).trace = completedOn p (lockStepW t e).trace := by
  have hg : getLockW s.locks (evPath e) = getLockW t.locks (evPath e) := by
    rw [hev]
    exact e1
  refine ⟨?_, ?_, ?_, ?_⟩
  · show getLockW (setLockW s.locks (evPath e) _) p
      = getLockW (setLockW t.locks (evPath e) _) p
    rw [← hev, getLockW_setLockW_self, getLockW_setLockW_self, hg]
  · show startedOn p (s.trace ++ _) = startedOn p (t.trace ++ _)
    rw [startedOn_append, startedOn_append, e2, hg]
  · show arrivedOn p (s.trace ++ _) = arrivedOn p (t.trace ++ _)
    rw [arrivedOn_append, arrivedOn_append, e3, hg]
  · show completedOn p (s.trace ++ _) = completedOn p (t.trace ++ _)
    rw [completedOn_append, completedOn_append, e4, hg]

/-- Events at other paths do not affect the state and history at `p`: the
run projects onto the events at `p`. -/
theorem lockRunW_proj_gen (evs : List LockEvW) (p : String) :
    ∀ s t : LockSysW,
      getLockW s.locks p = getLockW t.locks p →
      startedOn p s.trace = startedOn p t.trace →
      arrivedOn p s.trace = arrivedOn p t.trace →
      completedOn p s.trace = completedOn p t.trace →
      getLockW (evs.foldl lockStepW s).locks p
        = getLockW ((evs.filter (evOnW p)).foldl lockStepW t).locks p
      ∧ startedOn p (evs.foldl lockStepW s).trace
        = startedOn p ((evs.filter (evOnW p)).foldl lockStepW t).trace
      ∧ arrivedOn p (evs.foldl lockStepW s).trace
        = arrivedOn p ((evs.filter (evOnW p)).foldl lockStepW t).trace
      ∧ completedOn p (evs.foldl lockStepW s).trace
        = completedOn p ((evs.filter (evOnW p)).foldl lockStepW t).trace := by
  induction evs with
  | nil => exact fun s t e1 e2 e3 e4 => ⟨e1, e2, e3, e4⟩
  | cons e rest ih =>
    intro s t e1 e2 e3 e4
    by_cases hev : evOnW p e = true
    · rw [List.filter_cons_of_pos hev]
      simp only [List.foldl_cons]
      have hp : evPath e = p := of_decide_eq_true hev
      obtain ⟨f1, f2, f3, f4⟩ := lockStepW_onPath_congr s t e p hp e1 e2 e3 e4
      exact ih _ _ f1 f2 f3 f4
    · rw [List.filter_cons_of_neg hev]
      simp only [List.foldl_cons]
      have hp : ¬ evPath e = p := fun hc => hev (decide_eq_true hc)
      obtain ⟨f1, f2, f3, f4⟩ := lockStepW_offPath s e p hp
      exact ih _ _ (f1.trans e1) (f2.trans e2) (f3.trans e3) (f4.trans e4)

/-- One refined step preserves the per-path invariant. -/
theorem lockStepW_inv (s : LockSysW) (p : String) (e : LockEvW)
    (h : LockInvW s p) : LockInvW (lockStepW s e) p := by
  by_cases hev : evPath e = p
  · unfold LockInvW at h ⊢
    obtain ⟨h1, h2⟩ := h
    cases e with
    | arrive op q =>
      have hq : q = p := hev
      subst hq
      simp only [lockStepW, evPath]
      cases hpl : getLockW s.locks q with
      | mk hol w k =>
        rw [hpl] at h1 h2
        cases hol with
        | none =>
          rcases h2 with ⟨h0, hh, _⟩ | ⟨_, hse, hwk⟩
          · exact Option.noConfusion hh
          · have hwk' : w = [] := hwk
            have h1' : List.Perm (startedOn q s.trace ++ k ++ w)
                (arrivedOn q s.trace) := h1
            rw [hwk', List.append_nil] at h1'
            simp only [pathStep]
            constructor
            · rw [getLockW_setLockW_self, two_cons_eq_append, ← List.append_assoc,
                startedOn_append, startedOn_append, startedOn_arrived,
                startedOn_started, if_pos rfl, arrivedOn_append, arrivedOn_append,
                arrivedOn_arrived, if_pos rfl, arrivedOn_started]
              simp only [List.append_nil]
              have hgoal : List.Perm ((startedOn q s.trace ++ [op]) ++ k)
                  (arrivedOn q s.trace ++ [op]) := by
                rw [List.append_assoc]
                refine List.Perm.trans
                  (List.Perm.append_left _ List.perm_append_comm) ?_
                rw [← List.append_assoc]
                exact List.Perm.append_right [op] h1'
              exact hgoal
            · refine Or.inl ⟨op, ?_, ?_⟩
              · rw [getLockW_setLockW_self]
              · rw [two_cons_eq_append, ← List.append_assoc, startedOn_append,
                  startedOn_append, startedOn_arrived, startedOn_started,
                  if_pos rfl, completedOn_append, completedOn_append,
                  completedOn_arrived, completedOn_started]
                simp only [List.append_nil]
                rw [hse]
        | some h0 =>
          rcases h2 with ⟨h0', hh, hsc⟩ | ⟨hh, _, _⟩
          · have h1' : List.Perm (startedOn q s.trace ++ k ++ w)
                (arrivedOn q s.trace) := h1
            simp only [pathStep]
            constructor
            · rw [getLockW_setLockW_self, startedOn_append, startedOn_arrived,
                arrivedOn_append, arrivedOn_arrived, if_pos rfl]
              simp only [List.append_nil]
              have hgoal : List.Perm ((startedOn q s.trace ++ k) ++ (w ++ [op]))
                  (arrivedOn q s.trace ++ [op]) := by
                rw [← List.append_assoc]
                exact List.Perm.append_right [op] h1'
              exact hgoal
            · refine Or.inl ⟨h0', ?_, ?_⟩
              · rw [getLockW_setLockW_self]
                exact hh
              · rw [startedOn_append, startedOn_arrived, completedOn_append,
                  completedOn_arrived]
                simp only [List.append_nil]
                exact hsc
          · exact Option.noConfusion hh
    | finish q ok =>
      have hq : q = p := hev
      subst hq
      simp only [lockStepW, evPath]
      cases hpl : getLockW s.locks q with
      | mk hol w k =>
        rw [hpl] at h1 h2
        cases hol with
        | none =>
          simp only [pathStep]
          rw [getLockW_setLockW_self]
          simp only [List.append_nil]
          refine ⟨h1, ?_⟩
          rcases h2 with ⟨h0', hh, hsc⟩ | ⟨_, hse, hwk⟩
          · exact Or.inl ⟨h0', hh, hsc⟩
          · exact Or.inr ⟨by trivial, hse, hwk⟩
        | some h0 =>
          rcases h2 with ⟨h0', hh, hsc⟩ | ⟨hh, _, _⟩
          · have h1' : List.Perm ((startedOn q s.trace ++ k) ++ w)
                (arrivedOn q s.trace) := h1
            simp only [pathStep]
            constructor
            · rw [getLockW_setLockW_self, startedOn_append, startedOn_completed,
                arrivedOn_append, arrivedOn_completed]
              simp only [List.append_nil]
              have hgoal : List.Perm (startedOn q s.trace ++ (k ++ w))
                  (arrivedOn q s.trace) := by
                rw [← List.append_assoc]
                exact h1'
              exact hgoal
            · refine Or.inr ⟨?_, ?_, ?_⟩
              · rw [getLockW_setLockW_self]
              · rw [startedOn_append, startedOn_completed, completedOn_append,
                  completedOn_completed, if_pos rfl]
                simp only [List.append_nil]
                rw [hsc, Option.some.inj hh]
              · rw [getLockW_setLockW_self]
          · exact Option.noConfusion hh
    | wake q =>
      have hq : q = p := hev
      subst hq
      simp only [lockStepW, evPath]
      cases hpl : getLockW s.locks q with
      | mk hol w k =>
        rw [hpl] at h1 h2
        cases k with
        | nil =>
          cases hol with
          | none =>
            simp only [pathStep]
            rw [getLockW_setLockW_self]
            simp only [List.append_nil]
            have h1' : List.Perm ((startedOn q s.trace ++ []) ++ w)
                (arrivedOn q s.trace) := h1
            rw [List.append_nil] at h1'
            refine ⟨h1', ?_⟩
            rcases h2 with ⟨h0', hh, hsc⟩ | ⟨_, hse, hwk⟩
            · exact Or.inl ⟨h0', hh, hsc⟩
            · exact Or.inr ⟨by trivial, hse, hwk⟩
          | some h0 =>
            simp only [pathStep]
            rw [getLockW_setLockW_self]
            simp only [List.append_nil]
            have h1' : List.Perm ((startedOn q s.trace ++ []) ++ w)
                (arrivedOn q s.trace) := h1
            rw [List.append_nil] at h1'
            refine ⟨h1', ?_⟩
            rcases h2 with ⟨h0', hh, hsc⟩ | ⟨hh, _, _⟩
            · exact Or.inl ⟨h0', hh, hsc⟩
            · exact Option.noConfusion hh
        | cons n rest =>
          cases hol with
          | none =>
            rcases h2 with ⟨h0, hh, _⟩ | ⟨_, hse, hwk⟩
            · exact Option.noConfusion hh
            · have hwk' : w = [] := hwk
              have h1' : List.Perm ((startedOn q s.trace ++ (n :: rest)) ++ w)
                  (arrivedOn q s.trace) := h1
              rw [hwk', List.append_nil] at h1'
              simp only [pathStep]
              constructor
              · rw [getLockW_setLockW_self, startedOn_append, startedOn_started,
                  if_pos rfl, arrivedOn_append, arrivedOn_started]
                simp only [List.append_nil]
                have hgoal : List.Perm ((startedOn q s.trace ++ [n]) ++ rest)
                    (arrivedOn q s.trace) := by
                  rw [List.append_assoc]
                  exact h1'
                exact hgoal
              · refine Or.inl ⟨n, ?_, ?_⟩
                · rw [getLockW_setLockW_self]
                · rw [startedOn_append, startedOn_started, if_pos rfl,
                    completedOn_append, completedOn_started]
                  simp only [List.append_nil]
                  rw [hse]
          | some h0 =>
            rcases h2 with ⟨h0', hh, hsc⟩ | ⟨hh, _, _⟩
            · have h1' : List.Perm ((startedOn q s.trace ++ (n :: rest)) ++ w)
                  (arrivedOn q s.trace) := h1
              simp only [pathStep]
              constructor
              · rw [getLockW_setLockW_self]
                simp only [List.append_nil]
                have hmid : List.Perm
                    ((startedOn q s.trace ++ rest) ++ (w ++ [n]))
                    ((startedOn q s.trace ++ (n :: rest)) ++ w) := by
                  rw [List.append_assoc, List.append_assoc]
                  refine List.Perm.append_left _ ?_
                  rw [← List.append_assoc]
                  exact List.perm_append_singleton n (rest ++ w)
                exact hmid.trans h1'
              · refine Or.inl ⟨h0', ?_, ?_⟩
                · rw [getLockW_setLockW_self]
                  exact hh
                · simp only [List.append_nil]
                  exact hsc
            · exact Option.noConfusion hh
  · obtain ⟨f1, f2, f3, f4⟩ := lockStepW_offPath s e p hev
    unfold LockInvW at h ⊢
    rw [f1, f2, f3, f4]
    exact h

/-- The refined invariant holds at every reachable state. -/
theorem lockRunW_inv (evs : List LockEvW) (p : String) :
    LockInvW (lockRunW evs) p := by
  have h0 : LockInvW ⟨[], []⟩ p := by
    unfold LockInvW
    exact ⟨List.Perm.refl _, Or.inr ⟨rfl, rfl, rfl⟩⟩
  suffices hgen : ∀ s, LockInvW s p → LockInvW (evs.foldl lockStepW s) p from
    hgen _ h0
  induction evs with
  | nil => exact fun s hs => hs
  | cons e rest ih =>
    intro s hs
    simp only [List.foldl_cons]
    exact ih _ (lockStepW_inv s p e hs)

/-! Claim C5. -/

/-- Claim C5, refuted and amended: the per-path lock serializes but is not
first-come-first-served.  For every schedule of the refined machine:
completions occur in start order; at most one operation is inside the
critical section at a time; every operation that entered had arrived at that
path (the starts are a sub-permutation of the arrivals); and the lock state
and the start/arrival/completion history at a path are determined by the
events at that path alone, so operations on distinct normalized paths never
block each other.  Start order can differ from arrival order, because the
`finally` clause deletes the map entry before the queued waiters re-check
it, so a caller arriving in that window acquires ahead of earlier-arrived
waiters. -/
theorem claim_C5_lock_ordering (evs : List LockEvW) (p : String) :
    completedOn p (lockRunW evs).trace
      = (startedOn p (lockRunW evs).trace).take
          (completedOn p (lockRunW evs).trace).length
    ∧ (startedOn p (lockRunW evs).trace).length
        ≤ (completedOn p (lockRunW evs).trace).length + 1
    ∧ List.Subperm (startedOn p (lockRunW evs).trace)
        (arrivedOn p (lockRunW evs).trace)
    ∧ getLockW (lockRunW evs).locks p
      = getLockW (lockRunW (evs.filter (evOnW p))).locks p
    ∧ startedOn p (lockRunW evs).trace
      = startedOn p (lockRunW (evs.filter (evOnW p))).trace
    ∧ arrivedOn p (lockRunW evs).trace
      = arrivedOn p (lockRunW (evs.filter (evOnW p))).trace
    ∧ completedOn p (lockRunW evs).trace
      = completedOn p (lockRunW (evs.filter (evOnW p))).trace := by
  have hinv := lockRunW_inv evs p
  unfold LockInvW at hinv
  obtain ⟨h1, h2⟩ := hinv
  obtain ⟨g1, g2, g3, g4⟩ :=
    lockRunW_proj_gen evs p ⟨[], []⟩ ⟨[], []⟩ rfl rfl rfl rfl
  refine ⟨?_, ?_, ?_, g1, g2, g3, g4⟩
  · rcases h2 with ⟨h0, _, hsc⟩ | ⟨_, hse, _⟩
    · rw [hsc, List.take_left]
    · rw [hse, List.take_length]
  · rcases h2 with ⟨h0, _, hsc⟩ | ⟨_, hse, _⟩
    · rw [hsc, List.length_append]
      simp
    · rw [hse]
      exact Nat.le_succ _
  · have hsub : List.Sublist (startedOn p (lockRunW evs).trace)
        ((startedOn p (lockRunW evs).trace
            ++ (getLockW (lockRunW evs).locks p).woken)
          ++ (getLockW (lockRunW evs).locks p).waiters) :=
      List.Sublist.trans (List.sublist_append_left _ _)
        (List.sublist_append_left _ _)
    exact List.Subperm.trans hsub.subperm h1.subperm

/-- Claim C5, counterexample: under the overtaking schedule the arrivals at
`"a"` are operations 1, 2, 3 in that order, but the critical sections run in
order 1, 3, 2 — operation 2 was issued before operation 3, yet 3's critical
section begins and completes before 2's begins, because 3's `has` check runs
in the window between 1's release and 2's queued re-check.  The starts are
therefore not the arrivals served in order. -/
theorem claim_C5_counterexample :
    arrivedOn "a" (lockRunW c5evs).trace = [1, 2, 3]
    ∧ startedOn "a" (lockRunW c5evs).trace = [1, 3, 2]
    ∧ completedOn "a" (lockRunW c5evs).trace = [1, 3, 2]
    ∧ startedOn "a" (lockRunW c5evs).trace
        ≠ (arrivedOn "a" (lockRunW c5evs).trace).take
            (startedOn "a" (lockRunW c5evs).trace).length :=
  ⟨rfl, rfl, rfl, by decide⟩

/-! Claim C6. -/

/-- Claim C6: when the holder's wrapped operation settles — fulfilled or
rejected alike, since the `finally` clause runs either way — the lock map
after the step is identical for both outcomes, the completion is recorded,
and the lock is released: with no waiters the `fileLocks` entry is removed
(`has` returns false), and otherwise the earliest waiter immediately becomes
the holder. -/
theorem claim_C6_lock_release (s : LockSys) (p : String) (ok : Bool) (h0 : Nat)
    (w : List Nat) (hheld : getLock s.locks p = ⟨some h0, w⟩) :
    (lockStep s (.finish p true)).locks = (lockStep s (.finish p false)).locks
    ∧ (w = [] → hasLock (lockStep s (.finish p ok)).locks p = false)
    ∧ (∀ n rest, w = n :: rest →
        getLock (lockStep s (.finish p ok)).locks p = ⟨some n, rest⟩)
    ∧ completedOn p (lockStep s (.finish p ok)).trace = completedOn p s.trace ++ [h0] := by
  cases w with
  | nil =>
    have hstep : ∀ b, lockStep s (.finish p b)
        = ⟨delLock s.locks p, s.trace ++ [LockTraceEv.completed h0 p b]⟩ := by
      intro b
      show (match getLock s.locks p with
        | ⟨none, _⟩ => s
        | ⟨some hh, []⟩ => (⟨delLock s.locks p, s.trace ++ [LockTraceEv.completed hh p b]⟩ : LockSys)
        | ⟨some hh, n :: rest⟩ =>
          ⟨setLock s.locks p ⟨some n, rest⟩,
            s.trace ++ [LockTraceEv.completed hh p b, LockTraceEv.started n p]⟩) = _
      rw [hheld]
    refine ⟨by rw [hstep true, hstep false], fun _ => ?_, fun n rest hcon => ?_, ?_⟩
    · rw [hstep ok]
      exact hasLock_delLock_self _ _
    · cases hcon
    · rw [hstep ok]
      show completedOn p (s.trace ++ [LockTraceEv.completed h0 p ok]) = _
      rw [completedOn_append, completedOn_completed, if_pos rfl]
  | cons n0 rest0 =>
    have hstep : ∀ b, lockStep s (.finish p b)
        = ⟨setLock s.locks p ⟨some n0, rest0⟩,
            s.trace ++ [LockTraceEv.completed h0 p b, LockTraceEv.started n0 p]⟩ := by
      intro b
      show (match getLock s.locks p with
        | ⟨none, _⟩ => s
        | ⟨some hh, []⟩ => (⟨delLock s.locks p, s.trace ++ [LockTraceEv.completed hh p b]⟩ : LockSys)
        | ⟨some hh, n :: rest⟩ =>
          ⟨setLock s.locks p ⟨some n, rest⟩,
            s.trace ++ [LockTraceEv.completed hh p b, LockTraceEv.started n p]⟩) = _
      rw [hheld]
    refine ⟨by rw [hstep true, hstep false], fun hcon => ?_, fun n rest hcon => ?_, ?_⟩
    · cases hcon
    · rw [hstep ok]
      show getLock (setLock s.locks p ⟨some n0, rest0⟩) p = _
      rw [getLock_setLock_self]
      injection hcon with hc1 hc2
      rw [hc1, hc2]
    · rw [hstep ok]
      show completedOn p (s.trace ++ [LockTraceEv.completed h0 p ok, LockTraceEv.started n0 p]) = _
      rw [two_cons_eq_append, ← List.append_assoc, completedOn_append,
        completedOn_append, completedOn_completed, completedOn_started, if_pos rfl,
        List.append_nil]

/-- Witness for C6 at concrete lock states: with waiters `[2, 3]` the lock on
`"a"` is handed to operation 2 (waiter 3 still queued) identically for
fulfilment and rejection; with no waiters the entry is removed. -/
theorem claim_C6_lock_release_witness :
    (lockStep c6sys (.finish "a" true)).locks = (lockStep c6sys (.finish "a" false)).locks
    ∧ getLock (lockStep c6sys (.finish "a" true)).locks "a" = ⟨some 2, [3]⟩
    ∧ completedOn "a" (lockStep c6sys (.finish "a" true)).trace = [1]
    ∧ hasLock (lockStep c6sys2 (.finish "a" false)).locks "a" = false := by
  have h := claim_C6_lock_release c6sys "a" true 1 [2, 3] rfl
  have h2 := claim_C6_lock_release c6sys2 "a" false 1 [] rfl
  exact ⟨h.1, h.2.2.1 2 [3] rfl, h.2.2.2, h2.2.1 rfl⟩

/-! Association-list lemmas for the domain stores. -/

theorem lookupEntry_setEntry_self {α : Type} (es : List (String × α)) (k : String)
    (v : α) : lookupEntry (setEntry es k v) k = some v := by
  induction es with
  | nil => simp [setEntry, lookupEntry]
  | cons e es ih =>
    by_cases hek : e.1 = k
    · simp [setEntry, lookupEntry, hek]
    · simp [setEntry, lookupEntry, hek, ih]

theorem lookupEntry_setEntry_ne {α : Type} (es : List (String × α)) (k k' : String)
    (v : α) (h : k' ≠ k) :
    lookupEntry (setEntry es k v) k' = lookupEntry es k' := by
  induction es with
  | nil => simp [setEntry, lookupEntry, Ne.symm h]
  | cons e es ih =>
    by_cases hek : e.1 = k
    · have : ¬ k = k' := Ne.symm h
      simp [setEntry, lookupEntry, hek, this, ih]
    · by_cases hek' : e.1 = k'
      · simp [setEntry, lookupEntry, hek, hek', h]
      · simp [setEntry, lookupEntry, hek, hek', ih]

theorem lookupEntry_delEntry_ne {α : Type} (es : List (String × α)) (k k' : String)
    (h : k' ≠ k) : lookupEntry (delEntry es k) k' = lookupEntry es k' := by
  induction es with
  | nil => simp [delEntry, lookupEntry]
  | cons e es ih =>
    by_cases hek : e.1 = k
    · have hne : ¬ e.1 = k' := fun hh => h (by rw [← hh, hek])
      simp [delEntry, lookupEntry, hek, hne, Ne.symm h, ih]
    · by_cases hek' : e.1 = k'
      · simp [delEntry, lookupEntry, hek, hek', h]
      · simp [delEntry, lookupEntry, hek, hek', ih]

theorem lookup_foldl_delEntry_ne {α : Type} (rem : List Checkpoint)
    (ps : List (String × α)) (k : String) (h : ∀ cp ∈ rem, cp.id ≠ k) :
    lookupEntry (rem.foldl (fun acc cp => delEntry acc cp.id) ps) k
      = lookupEntry ps k := by
  induction rem generalizing ps with
  | nil => rfl
  | cons cp rest ih =>
    simp only [List.foldl_cons]
    rw [ih _ (fun c hc => h c (List.mem_cons_of_mem cp hc)),
      lookupEntry_delEntry_ne _ _ _ (Ne.symm (h cp (List.mem_cons_self cp rest)))]

/-! Claim C7 (a code bug: the session-initialization listing computes expiry
from `createdAt` while every other read path, the spec's data model
("TTL ... measured from last update") and `isExpired`'s own comment
("TTL resets on update") use `updatedAt`). -/

/-- Claim C7, evaluated at the failing input: an entry created at 0, updated
at 2000, with `ttl = 1000`, read at `now = 1500`.  `isExpired` (used by
`memory_get`, `memory_list`, `memory_search`) treats it as live — its
`updatedAt + ttl = 3000` has not passed — but `getMemoryList` of
`session_init` computes expiry from `createdAt` and omits it.  The freshly
written entry (`updatedAt = createdAt = 0`) behaves per the claim on the
isExpired paths: returned normally at 500, reported expired and physically
deleted by `memory_get` at 1500. -/
theorem claim_C7_ttl_divergence :
    isExpired c7entryStale 1500 = false
    ∧ (memory_get [("cfg", c7entryStale)] "cfg" 1500).1 = .found c7entryStale
    ∧ memory_list [("cfg", c7entryStale)] 1500 = [("cfg", [], 2000)]
    ∧ memory_search [("cfg", c7entryStale)] 1500 none none = [c7entryStale]
    ∧ sessionMemoryList [("cfg", c7entryStale)] 1500 = []
    ∧ (memory_get [("tmp", c7entryFresh)] "tmp" 500).1 = .found c7entryFresh
    ∧ (memory_get [("tmp", c7entryFresh)] "tmp" 1500).1 = .expired
    ∧ (memory_get [("tmp", c7entryFresh)] "tmp" 1500).2 = []
    ∧ memory_list [("tmp", c7entryFresh)] 1500 = [] :=
  ⟨rfl, rfl, rfl, rfl, rfl, rfl, rfl, rfl, rfl⟩

/-! Claim C8. -/

/-- Claim C8: whenever the tracker collection is saved with strictly more
than `MAX_ENTRIES` entries, exactly the most recent `ROTATE_KEEP` entries by
insertion order (the final `ROTATE_KEEP`-element suffix) are persisted and
all older entries discarded.  (`ROTATE_KEEP` positive and at most
`MAX_ENTRIES`, as the defaults 800 and 1000 are.) -/
theorem claim_C8_tracker_rotation (maxE keep : Nat) (s : TrackerStore)
    (hk : 0 < keep) (hkm : keep ≤ maxE) (hlen : s.entries.length > maxE) :
    (saveTrackerStore maxE keep s).entries = s.entries.drop (s.entries.length - keep)
    ∧ (saveTrackerStore maxE keep s).entries.length = keep := by
  have h1 : (saveTrackerStore maxE keep s).entries = jsSliceLast keep s.entries := by
    simp [saveTrackerStore, hlen]
  rw [jsSliceLast, if_neg (Nat.pos_iff_ne_zero.mp hk)] at h1
  refine ⟨h1, ?_⟩
  rw [h1, List.length_drop]
  omega

/-- Witness for C8: inserting 1001 entries with `MAX_ENTRIES = 1000` and
`ROTATE_KEEP = 800` leaves exactly the most recent 800. -/
theorem claim_C8_tracker_rotation_witness :
    (saveTrackerStore 1000 800 c8store).entries = c8store.entries.drop 201
    ∧ (saveTrackerStore 1000 800 c8store).entries.length = 800 := by
  have hlen : c8store.entries.length = 1001 := by
    simp [c8store, c8entries]
  have h := claim_C8_tracker_rotation 1000 800 c8store (by decide) (by decide)
    (by rw [hlen]; decide)
  refine ⟨?_, h.2⟩
  rw [h.1, hlen]

/-! Claim C9. -/

/-- Members of `eraseP` by an id do not carry that id when index ids are
distinct and some entry matched. -/
theorem mem_eraseP_id_ne (l : List Checkpoint) (id : String)
    (hnd : (l.map (·.id)).Nodup)
    (hany : l.any (fun cp => decide (cp.id = id)) = true)
    (cp : Checkpoint) (hcp : cp ∈ l.eraseP (fun cp => decide (cp.id = id))) :
    cp.id ≠ id := by
  obtain ⟨a, ha, pa⟩ := List.any_eq_true.mp hany
  have pa2 : (fun cp => decide (cp.id = id)) a = true := pa
  obtain ⟨a', l₁, l₂, _, pa', hl, he⟩ :=
    List.exists_of_eraseP (p := fun cp => decide (cp.id = id)) ha pa2
  intro hcpid
  rw [he] at hcp
  have ha'id : a'.id = id := of_decide_eq_true pa'
  have : (l.map (·.id)).Nodup := hnd
  rw [hl, List.map_append, List.map_cons] at this
  have hnotin : a'.id ∉ l₁.map (·.id) ++ l₂.map (·.id) := by
    rw [List.nodup_append] at this
    obtain ⟨_, hcons, hdisj⟩ := this
    intro hmem
    rcases List.mem_append.mp hmem with hmem | hmem
    · exact hdisj hmem (List.mem_cons_self _ _)
    · exact (List.nodup_cons.mp hcons).1 hmem
  apply hnotin
  have : cp.id ∈ l₁.map (·.id) ++ l₂.map (·.id) := by
    rw [← List.map_append]
    exact List.mem_map_of_mem _ hcp
  rw [hcpid, ← ha'id] at this
  exact this

/-- Claim C9: after a completed `checkpoint_save` (including its
prune-on-ceiling step) and after a completed `checkpoint_delete`, every id in
the persisted index has a payload document; moreover the payload is written
before the index entry is added, so the intermediate state after the payload
write is also coherent.  Requires the generated id to be fresh (the
`cp_<millis>_<random>` scheme). -/
theorem claim_C9_checkpoint_index_payload (maxCp : Nat) (d : CpDisk)
    (newId nm : String) (descr : Option String) (state : Json)
    (files : List String) (now : String) (delId : String)
    (hinv : CpInv d) (hfresh : newId ∉ d.index.map (·.id)) :
    CpInv ⟨d.index, setEntry d.payloads newId state⟩
    ∧ CpInv (checkpoint_save maxCp d newId nm descr state files now)
    ∧ CpInv (checkpoint_delete d delId) := by
  obtain ⟨hnd, hpay⟩ := hinv
  have hpay1 : ∀ cp ∈ d.index,
      (lookupEntry (setEntry d.payloads newId state) cp.id).isSome = true := by
    intro cp hcp
    have hne : cp.id ≠ newId := fun h => hfresh (h ▸ List.mem_map_of_mem _ hcp)
    rw [lookupEntry_setEntry_ne _ _ _ _ hne]
    exact hpay cp hcp
  refine ⟨⟨hnd, hpay1⟩, ?_, ?_⟩
  · -- checkpoint_save
    set newCp : Checkpoint :=
      { id := newId, name := nm, description := descr, state := .obj [],
        files := files, createdAt := now } with hnewCp
    have hndcps : ((d.index ++ [newCp]).map (·.id)).Nodup := by
      rw [List.map_append, List.nodup_append]
      refine ⟨hnd, by simp, ?_⟩
      intro x hx hx1
      rw [List.map_cons, List.map_nil] at hx1
      rcases List.mem_cons.mp hx1 with h | h
      · have hxid : x = newId := by rw [h, hnewCp]
        exact hfresh (hxid ▸ hx)
      · cases h
    have hpaycps : ∀ cp ∈ d.index ++ [newCp],
        (lookupEntry (setEntry d.payloads newId state) cp.id).isSome = true := by
      intro cp hcp
      rcases List.mem_append.mp hcp with h | h
      · exact hpay1 cp h
      · rcases List.mem_cons.mp h with h | h
        · rw [h, hnewCp]
          show (lookupEntry (setEntry d.payloads newId state) newId).isSome = true
          rw [lookupEntry_setEntry_self]
          rfl
        · cases h
    show CpInv (if (d.index ++ [newCp]).length > maxCp then _ else _)
    by_cases hover : (d.index ++ [newCp]).length > maxCp
    · rw [if_pos hover]
      set k := (d.index ++ [newCp]).length - maxCp with hk
      refine ⟨?_, ?_⟩
      · show (((d.index ++ [newCp]).drop k).map (·.id)).Nodup
        rw [List.map_drop]
        exact List.Nodup.sublist (List.drop_sublist _ _) hndcps
      · intro cp hcp
        show (lookupEntry (((d.index ++ [newCp]).take k).foldl
          (fun acc c => delEntry acc c.id) (setEntry d.payloads newId state)) cp.id).isSome
          = true
        rw [lookup_foldl_delEntry_ne]
        · exact hpaycps cp (List.mem_of_mem_drop hcp)
        · intro c hc heq
          have hnodup2 := hndcps
          rw [← List.take_append_drop k (d.index ++ [newCp]), List.map_append,
            List.nodup_append] at hnodup2
          exact hnodup2.2.2 (List.mem_map_of_mem _ hc)
            (heq ▸ List.mem_map_of_mem (·.id) hcp)
    · rw [if_neg hover]
      exact ⟨hndcps, hpaycps⟩
  · -- checkpoint_delete
    show CpInv (if d.index.any (fun cp => decide (cp.id = delId)) then _ else _)
    by_cases hany : d.index.any (fun cp => decide (cp.id = delId)) = true
    · rw [if_pos hany]
      refine ⟨?_, ?_⟩
      · show ((d.index.eraseP (fun cp => decide (cp.id = delId))).map (·.id)).Nodup
        exact List.Nodup.sublist ((List.eraseP_sublist _).map _) hnd
      · intro cp hcp
        show (lookupEntry (delEntry d.payloads delId) cp.id).isSome = true
        rw [lookupEntry_delEntry_ne _ _ _ (mem_eraseP_id_ne d.index delId hnd hany cp hcp)]
        exact hpay cp (List.mem_of_mem_eraseP hcp)
    · rw [if_neg hany]
      exact ⟨hnd, hpay⟩

/-- Witness for C9 at a concrete store: with ceiling 1, saving a second
checkpoint prunes the first (index and payload together), and deleting the
only checkpoint leaves a coherent store. -/
theorem claim_C9_checkpoint_index_payload_witness :
    CpInv (checkpoint_save 1 c9disk "cp2" "two" none (.num 2) [] "t2")
    ∧ CpInv (checkpoint_delete c9disk "cp1") := by
  have h := claim_C9_checkpoint_index_payload 1 c9disk "cp2" "two" none (.num 2)
    [] "t2" "cp1" ⟨by decide, by decide⟩ (by decide)
  exact ⟨h.2.1, h.2.2⟩

/-! Claim C10. -/

/-- Claim C10: `memory_set` on an existing key keeps the original
`createdAt`, stamps `updatedAt` with the call time, and stores exactly the
`ttl` argument — so omitting `ttl` on a key that previously had one removes
the TTL, making the entry non-expiring — while every other key's entry is
unchanged. -/
theorem claim_C10_memory_set (es : MemoryEntries) (k : String) (v : Json)
    (tags : Option (List String)) (ttl : Option Nat) (now : Nat) (e : MemoryEntry)
    (hex : lookupEntry es k = some e) :
    lookupEntry (memory_set es k v tags ttl now) k
      = some ⟨k, v, tags.getD [], e.createdAt, now, ttl⟩
    ∧ (∀ k', k' ≠ k → lookupEntry (memory_set es k v tags ttl now) k'
        = lookupEntry es k')
    ∧ (ttl = none → ∀ now', isExpired ⟨k, v, tags.getD [], e.createdAt, now, ttl⟩ now'
        = false) := by
  have hset : memory_set es k v tags ttl now
      = setEntry es k ⟨k, v, tags.getD [], e.createdAt, now, ttl⟩ := by
    unfold memory_set
    rw [hex]
    rfl
  refine ⟨?_, ?_, ?_⟩
  · rw [hset, lookupEntry_setEntry_self]
  · intro k' hk'
    rw [hset, lookupEntry_setEntry_ne _ _ _ _ hk']
  · intro h now'
    subst h
    rfl

/-- Witness for C10: overwriting key `"k"` (createdAt 10, ttl 500) at time
1000 without a ttl keeps createdAt, sets updatedAt, clears the TTL, and
leaves `"other"` untouched. -/
theorem claim_C10_memory_set_witness :
    lookupEntry (memory_set c10es "k" (.num 9) none none 1000) "k"
      = some ⟨"k", .num 9, [], 10, 1000, none⟩
    ∧ lookupEntry (memory_set c10es "k" (.num 9) none none 1000) "other"
      = lookupEntry c10es "other"
    ∧ (∀ now', isExpired ⟨"k", .num 9, [], 10, 1000, none⟩ now' = false) := by
  have h := claim_C10_memory_set c10es "k" (.num 9) none none 1000
    ⟨"k", .num 1, ["x"], 10, 20, some 500⟩ rfl
  exact ⟨h.1, h.2.1 "other" (by decide), h.2.2 rfl⟩

end CtxMgr
